import Mathlib

/-!
Verification of the windowed matching engine of note-matcher (`src/main.cpp`): the
struct `Node`, the function `match_nodes`, and the merge loops of `main`.

Modelling conventions.
* `std::list<Node>` is a `List Node`.  A `const Node *` that points into the list is the
  position of the pointee in the list; `nullptr` is `none`.  `match_nodes` only writes
  pointers to nodes of the list it is given, and after its erase-remove every node left
  has `matched == nullptr`, so no position outlives the call that wrote it.
* `int64_t` values are `Int`.  Signed overflow is undefined behaviour in C++, so the
  embedding describes the program on the inputs for which `current_time - time_epsilon`
  and `node2.time - node.time` do not overflow (times are milliseconds since the start
  of the program).
* The callback argument of `match_nodes` is modelled by the list of its invocations, in
  call order, each recorded as `(matched, position of the node passed)`; the node passed
  is read in the list as it is after the matching pass (`MatchResult.linked`).
* The loops are structural recursions; the first merge loop, which pops from one of two
  lists, is given the number of iterations it can run at most.
-/

namespace NoteMatcher

/-- The constant `NODE_TYPE_GROUND_TRUTH` (main.cpp line 21). -/
def NODE_TYPE_GROUND_TRUTH : Int := 0

/-- The constant `NODE_TYPE_INPUT` (main.cpp line 22). -/
def NODE_TYPE_INPUT : Int := 1

/-- The global `time_epsilon` (main.cpp line 25); it is never assigned to. -/
def time_epsilon : Int := 100

/-- The struct `Node` (main.cpp lines 28-38). -/
structure Node where
  type : Int
  time : Int
  midi_value : Int
  velocity : Int
  matched : Option Nat := none
deriving DecidableEq, Repr

/-- The assignment `node.matched = &other`, where `p` is the position of `other`. -/
def Node.link (node : Node) (p : Nat) : Node :=
  { node with matched := some p }

/-- Writes `matched = &nodes[p]` into the node at position `i`. -/
def setMatched : List Node → Nat → Nat → List Node
  | [], _, _ => []
  | node :: rest, 0, p => node.link p :: rest
  | node :: rest, i + 1, p => node :: setMatched rest i p

/-- The test of main.cpp lines 63-66 for the scanning `node` and the candidate `node2`. -/
def qualifies (node node2 : Node) : Bool :=
  node.midi_value == node2.midi_value &&
  node.type != node2.type &&
  node.matched == none &&
  node2.matched == none

/-- The inner loop of `match_nodes` (main.cpp lines 57-72) as a search: `rest` is the
part of the list from `it2` on and `j` the position of its head.  The result is the
position of the node the loop links to `node`, or `none` when the loop ends (by
`break` on the window test or at `nodes.end()`) without linking. -/
def findPartner (node : Node) : List Node → Nat → Option Nat
  | [], _ => none
  | node2 :: rest, j =>
    if node2.time - node.time ≥ time_epsilon then none
    else if qualifies node node2 then some j
    else findPartner node rest (j + 1)

/-- One iteration of the outer loop of `match_nodes` (main.cpp lines 47-73), with `it`
at position `i`. -/
def matchStep (current_time : Int) (nodes : List Node) (i : Nat) : List Node :=
  match nodes[i]? with
  | none => nodes
  | some node =>
    if node.matched ≠ none then nodes
    else if node.time < current_time - time_epsilon then
      match findPartner node (nodes.drop (i + 1)) (i + 1) with
      | none => nodes
      | some j => setMatched (setMatched nodes i j) j i
    else nodes

/-- The list after the first `k` iterations of the outer loop of `match_nodes`. -/
def matchUpTo (current_time : Int) (nodes : List Node) (k : Nat) : List Node :=
  (List.range k).foldl (matchStep current_time) nodes

/-- The matching pass: the whole first loop of `match_nodes` (main.cpp lines 46-74). -/
def matchPass (current_time : Int) (nodes : List Node) : List Node :=
  matchUpTo current_time nodes nodes.length

/-- The callbacks the second loop of `match_nodes` issues for the node at position `i`
(main.cpp lines 77-83). -/
def nodeCallbacks (current_time : Int) (i : Nat) (node : Node) : List (Bool × Nat) :=
  (if node.matched ≠ none ∧ node.type = NODE_TYPE_GROUND_TRUTH then [(true, i)] else []) ++
  (if node.matched = none ∧ node.time < current_time - time_epsilon then [(false, i)] else [])

/-- The second loop of `match_nodes` (main.cpp lines 76-84) over the part `rest` of the
list whose head is at position `i`. -/
def callbacksFrom (current_time : Int) : List Node → Nat → List (Bool × Nat)
  | [], _ => []
  | node :: rest, i => nodeCallbacks current_time i node ++ callbacksFrom current_time rest (i + 1)

/-- The predicate given to `std::remove_if` (main.cpp lines 87-89). -/
def evicted (current_time : Int) (node : Node) : Bool :=
  decide (node.time < current_time - time_epsilon) || node.matched != none

/-- The erase-remove of `match_nodes` (main.cpp lines 86-91). -/
def evict (current_time : Int) (nodes : List Node) : List Node :=
  nodes.filter (fun node => !evicted current_time node)

/-- The outcome of one call of `match_nodes`: the callbacks issued, the list as it is
when they are issued (after the matching pass), and the list left to the caller. -/
structure MatchResult where
  callbacks : List (Bool × Nat)
  linked : List Node
  pending : List Node
deriving DecidableEq, Repr

/-- The function `match_nodes` (main.cpp lines 41-92). -/
def match_nodes (nodes : List Node) (current_time : Int) : MatchResult :=
  let linked := matchPass current_time nodes
  { callbacks := callbacksFrom current_time linked 0
    linked := linked
    pending := evict current_time linked }

/-- The first merge loop of `main` (main.cpp lines 254-262).  The arguments are
`ground_truth`, `input_nodes` and `pending_nodes`; the result is their values when the
loop ends.  Every iteration pops one node, so the first argument bounds the number of
iterations that are run. -/
def mergeLoop : Nat → List Node → List Node → List Node → List Node × List Node × List Node
  | fuel + 1, g :: gs, i :: is, pending_nodes =>
    if g.time < i.time then mergeLoop fuel gs (i :: is) (pending_nodes ++ [g])
    else mergeLoop fuel (g :: gs) is (pending_nodes ++ [i])
  | _, ground_truth, input_nodes, pending_nodes => (ground_truth, input_nodes, pending_nodes)

/-- The last loop of the merge (main.cpp lines 267-274): the values of `ground_truth`
and `pending_nodes` when it ends. -/
def drainLoop (current_time : Int) : List Node → List Node → List Node × List Node
  | [], pending_nodes => ([], pending_nodes)
  | g :: gs, pending_nodes =>
    if g.time > current_time then (g :: gs, pending_nodes)
    else drainLoop current_time gs (pending_nodes ++ [g])

/-- The state `main` keeps from one iteration of its loop to the next. -/
structure Streams where
  ground_truth : List Node
  pending_nodes : List Node
deriving DecidableEq, Repr

/-- The merge of one tick (main.cpp lines 253-274): the first loop, the loop that
appends what is left of `input_nodes`, and the loop that drains `ground_truth`. -/
def mergeStep (s : Streams) (input_nodes : List Node) (current_time : Int) : Streams :=
  let r := mergeLoop (s.ground_truth.length + input_nodes.length)
    s.ground_truth input_nodes s.pending_nodes
  let d := drainLoop current_time r.1 (r.2.2 ++ r.2.1)
  { ground_truth := d.1, pending_nodes := d.2 }

/-- One tick of `main` (main.cpp lines 253-292): the merge, then `match_nodes`.  The
result is the state kept for the next tick and the outcome of `match_nodes`. -/
def tick (s : Streams) (input_nodes : List Node) (current_time : Int) : Streams × MatchResult :=
  let m := mergeStep s input_nodes current_time
  let r := match_nodes m.pending_nodes current_time
  ({ ground_truth := m.ground_truth, pending_nodes := r.pending }, r)

/-- The match link of the node at position `i`, `none` when it is `nullptr` (or when
there is no such position). -/
def linkAt (nodes : List Node) (i : Nat) : Option Nat :=
  (nodes[i]?).bind (·.matched)

/-- A list of nodes is non-decreasing in `time`. -/
def NonDecreasing (nodes : List Node) : Prop :=
  nodes.Pairwise (fun a b => a.time ≤ b.time)

instance (nodes : List Node) : Decidable (NonDecreasing nodes) := by
  unfold NonDecreasing; infer_instance

/-- The node with its match link cleared: the fields `match_nodes` never writes. -/
def Node.unlinked (node : Node) : Node :=
  { node with matched := none }

/-- In the list `s`, the outer loop of `match_nodes` at position `i` links the node there
to the node at position `j`: the node at `i` is unmatched with a closed window, and `j` is
where the scan of lines 57-72 stops with a match. -/
def StepLink (current_time : Int) (s : List Node) (i j : Nat) : Prop :=
  ∃ a c, s[i]? = some a ∧ a.matched = none ∧ a.time < current_time - time_epsilon ∧
    i < j ∧ s[j]? = some c ∧ qualifies a c = true ∧
    (∀ m d, i < m → m ≤ j → s[m]? = some d → d.time - a.time < time_epsilon) ∧
    (∀ m d, i < m → m < j → s[m]? = some d → qualifies a d = false)

/-- The match links of a list are mutual: `A.matched = B` implies `B.matched = A`. -/
def Mutual (s : List Node) : Prop :=
  ∀ m q, linkAt s m = some q → linkAt s q = some m

/-- In the list `s`, position `j` holds the first candidate of the event at position
`i`: the first event after `i` that is unmatched, has the same `midi_value` and a
different `type`, and lies before the first later event whose time minus the time of
the event at `i` is at least `time_epsilon`. -/
def FirstCandidate (s : List Node) (i j : Nat) : Prop :=
  i < j ∧ ∃ a c, s[i]? = some a ∧ s[j]? = some c ∧
    (c.matched = none ∧ c.midi_value = a.midi_value ∧ c.type ≠ a.type) ∧
    (∀ m d, i < m → m ≤ j → s[m]? = some d → d.time - a.time < time_epsilon) ∧
    (∀ m d, i < m → m < j → s[m]? = some d →
      ¬ (d.matched = none ∧ d.midi_value = a.midi_value ∧ d.type ≠ a.type))

/-- The callback `c`, issued on the list `linked`, covers the event at position `i`:
the event is the node passed to the callback, or the callback is `callback(true, .)` and
the event is the `matched` partner of the node passed. -/
def covers (linked : List Node) (i : Nat) (c : Bool × Nat) : Bool :=
  c.2 == i || (c.1 && linkAt linked c.2 == some i)

/-- The positions a callback covers: the node passed and, for `callback(true, .)`, the
node its `matched` points at. -/
def coveredBy (linked : List Node) (c : Bool × Nat) : List Nat :=
  c.2 :: (if c.1 then (linkAt linked c.2).toList else [])

/-- The positions covered by a list of callbacks, in call order. -/
def coveredPositions (linked : List Node) : List (Bool × Nat) → List Nat
  | [] => []
  | c :: cs => coveredBy linked c ++ coveredPositions linked cs

/-- The identities of the nodes the erase-remove of `match_nodes` keeps: `ids` lists the
identities of the nodes of the list, position by position. -/
def keepIds (current_time : Int) : List Nat → List Node → List Nat
  | id :: ids, node :: nodes =>
    if evicted current_time node then keepIds current_time ids nodes
    else id :: keepIds current_time ids nodes
  | _, _ => []

/-- The state of `main` together with the identity of every pending event.  A node has
no identity of its own in the model (two events may agree on every field), so the events
are numbered in the order in which they are appended to `pending_nodes`: `ids` holds the
numbers of the events of `pending_nodes`, position by position, and `next` is the number
the next appended event gets. -/
structure Tracked where
  streams : Streams
  ids : List Nat
  next : Nat

/-- One tick of `main` on a tracked state: the state after the tick, and the identities
of the events covered by the callbacks of the tick, in call order. -/
def trackedTick (t : Tracked) (input_nodes : List Node) (current_time : Int) :
    Tracked × List Nat :=
  let m := mergeStep t.streams input_nodes current_time
  let added := m.pending_nodes.length - t.streams.pending_nodes.length
  let ids := t.ids ++ List.range' t.next added
  let r := match_nodes m.pending_nodes current_time
  ({ streams := { ground_truth := m.ground_truth, pending_nodes := r.pending }
     ids := keepIds current_time ids r.linked
     next := t.next + added },
   (coveredPositions r.linked r.callbacks).map (fun k => ids.getD k 0))

/-- The identities of the events covered by the callbacks of a sequence of ticks, each
tick given by its observed batch and its `current_time`. -/
def classified (t : Tracked) : List (List Node × Int) → List Nat
  | [] => []
  | tk :: rest =>
    (trackedTick t tk.1 tk.2).2 ++ classified (trackedTick t tk.1 tk.2).1 rest

/-- Every node of the list is unmatched and of one of the two node types. -/
def Clean (nodes : List Node) : Prop :=
  ∀ n ∈ nodes, n.matched = none ∧ (n.type = NODE_TYPE_GROUND_TRUTH ∨ n.type = NODE_TYPE_INPUT)

instance (nodes : List Node) : Decidable (Clean nodes) := by
  unfold Clean; infer_instance

/-- The identities of a tracked state fit its pending sequence: one identity per pending
event, no identity twice, all below `next`; pending events and reference queue hold
unmatched nodes of the two node types. -/
def WellTracked (t : Tracked) : Prop :=
  t.ids.length = t.streams.pending_nodes.length ∧ t.ids.Nodup ∧ (∀ x ∈ t.ids, x < t.next) ∧
  Clean t.streams.pending_nodes ∧ Clean t.streams.ground_truth

/-! ## The matching pass: basic facts -/

theorem setMatched_length (l : List Node) (i p : Nat) :
    (setMatched l i p).length = l.length := by
  induction l generalizing i with
  | nil => rfl
  | cons a l ih => cases i <;> simp [setMatched, ih]

theorem setMatched_getElem? (l : List Node) (i p k : Nat) :
    (setMatched l i p)[k]? = if k = i then (l[k]?).map (fun n => n.link p) else l[k]? := by
  induction l generalizing i k with
  | nil => simp [setMatched]
  | cons a l ih =>
    cases i with
    | zero => cases k <;> simp [setMatched]
    | succ i =>
      cases k with
      | zero => simp [setMatched]
      | succ k => simp [setMatched, ih]

theorem findPartner_eq_some_iff (node : Node) (rest : List Node) (b j : Nat) :
    findPartner node rest b = some j ↔
      b ≤ j ∧ ∃ c, rest[j - b]? = some c ∧ qualifies node c = true ∧
        (∀ m d, m ≤ j - b → rest[m]? = some d → d.time - node.time < time_epsilon) ∧
        (∀ m d, m < j - b → rest[m]? = some d → qualifies node d = false) := by
  induction rest generalizing b j with
  | nil => simp [findPartner]
  | cons a rest ih =>
    unfold findPartner
    by_cases hbr : a.time - node.time ≥ time_epsilon
    · simp only [hbr, if_true]
      constructor
      · intro h; cases h
      · rintro ⟨_, c, _, _, hw, _⟩
        have := hw 0 a (Nat.zero_le _) (by simp)
        omega
    · simp only [hbr, if_false]
      by_cases hq : qualifies node a = true
      · simp only [hq, if_true]
        constructor
        · intro h
          cases h
          refine ⟨le_refl _, a, by simp, hq, ?_, ?_⟩
          · intro m d hm hd
            have : m = 0 := by omega
            subst this
            simp at hd; subst hd; omega
          · intro m d hm; omega
        · rintro ⟨hbj, c, hc, hqc, hw, hn⟩
          by_cases h0 : j - b = 0
          · congr 1; omega
          · have := hn 0 a (by omega) (by simp)
            rw [hq] at this; cases this
      · have hqf : qualifies node a = false := by simpa using hq
        simp only [hqf, Bool.false_eq_true, if_false]
        rw [ih]
        constructor
        · rintro ⟨hbj, c, hc, hqc, hw, hn⟩
          have e : j - b = (j - (b + 1)) + 1 := by omega
          refine ⟨by omega, c, by rw [e]; simpa using hc, hqc, ?_, ?_⟩
          · intro m d hm hd
            cases m with
            | zero => simp at hd; subst hd; omega
            | succ m => exact hw m d (by omega) (by simpa using hd)
          · intro m d hm hd
            cases m with
            | zero => simp at hd; subst hd; exact hqf
            | succ m => exact hn m d (by omega) (by simpa using hd)
        · rintro ⟨hbj, c, hc, hqc, hw, hn⟩
          have hne : j - b ≠ 0 := by
            intro h0
            rw [h0] at hc
            simp at hc; subst hc
            rw [hqf] at hqc; cases hqc
          have e : j - b = (j - (b + 1)) + 1 := by omega
          refine ⟨by omega, c, by rw [e] at hc; simpa using hc, hqc, ?_, ?_⟩
          · intro m d hm hd
            exact hw (m + 1) d (by omega) (by simpa using hd)
          · intro m d hm hd
            exact hn (m + 1) d (by omega) (by simpa using hd)

theorem findPartner_drop_iff (a : Node) (s : List Node) (i j : Nat) :
    findPartner a (s.drop (i + 1)) (i + 1) = some j ↔
      i < j ∧ ∃ c, s[j]? = some c ∧ qualifies a c = true ∧
        (∀ m d, i < m → m ≤ j → s[m]? = some d → d.time - a.time < time_epsilon) ∧
        (∀ m d, i < m → m < j → s[m]? = some d → qualifies a d = false) := by
  rw [findPartner_eq_some_iff]
  constructor
  · rintro ⟨hij, c, hc, hq, hw, hn⟩
    refine ⟨by omega, c, ?_, hq, ?_, ?_⟩
    · rw [List.getElem?_drop] at hc
      have e : i + 1 + (j - (i + 1)) = j := by omega
      rwa [e] at hc
    · intro m d him hmj hd
      refine hw (m - (i + 1)) d (by omega) ?_
      rw [List.getElem?_drop]
      have e : i + 1 + (m - (i + 1)) = m := by omega
      rwa [e]
    · intro m d him hmj hd
      refine hn (m - (i + 1)) d (by omega) ?_
      rw [List.getElem?_drop]
      have e : i + 1 + (m - (i + 1)) = m := by omega
      rwa [e]
  · rintro ⟨hij, c, hc, hq, hw, hn⟩
    refine ⟨by omega, c, ?_, hq, ?_, ?_⟩
    · rw [List.getElem?_drop]
      have e : i + 1 + (j - (i + 1)) = j := by omega
      rwa [e]
    · intro m d hm hd
      rw [List.getElem?_drop] at hd
      exact hw (i + 1 + m) d (by omega) (by omega) hd
    · intro m d hm hd
      rw [List.getElem?_drop] at hd
      exact hn (i + 1 + m) d (by omega) (by omega) hd

theorem matchStep_cases (ct : Int) (s : List Node) (i : Nat) :
    (matchStep ct s i = s ∧ ∀ j, ¬ StepLink ct s i j) ∨
    (∃ j, StepLink ct s i j ∧ matchStep ct s i = setMatched (setMatched s i j) j i) := by
  unfold matchStep
  cases hi : s[i]? with
  | none =>
    left
    refine ⟨rfl, ?_⟩
    rintro j ⟨a, c, ha, _⟩
    rw [hi] at ha; cases ha
  | some a =>
    by_cases hm : a.matched ≠ none
    · left
      dsimp only
      rw [if_pos hm]
      refine ⟨rfl, ?_⟩
      rintro j ⟨a2, c, ha, hm2, _⟩
      rw [hi] at ha; cases ha
      exact hm hm2
    · dsimp only
      rw [if_neg hm]
      have hm2 : a.matched = none := by simpa using hm
      by_cases ht : a.time < ct - time_epsilon
      · rw [if_pos ht]
        cases hf : findPartner a (s.drop (i + 1)) (i + 1) with
        | none =>
          left
          refine ⟨rfl, ?_⟩
          rintro j ⟨a2, c, ha, _, _, hij, hc, hq, hw, hn⟩
          rw [hi] at ha; cases ha
          have : findPartner a (s.drop (i + 1)) (i + 1) = some j :=
            (findPartner_drop_iff a s i j).2 ⟨hij, c, hc, hq, hw, hn⟩
          rw [hf] at this; cases this
        | some j =>
          right
          obtain ⟨hij, c, hc, hq, hw, hn⟩ := (findPartner_drop_iff a s i j).1 hf
          exact ⟨j, ⟨a, c, hi, hm2, ht, hij, hc, hq, hw, hn⟩, rfl⟩
      · left
        rw [if_neg ht]
        refine ⟨rfl, ?_⟩
        rintro j ⟨a2, c, ha, _, ht2, _⟩
        rw [hi] at ha; cases ha
        exact ht ht2

theorem StepLink_unique {ct : Int} {s : List Node} {i j k : Nat}
    (hj : StepLink ct s i j) (hk : StepLink ct s i k) : j = k := by
  obtain ⟨a, c, ha, _, _, hij, hc, hq, hw, hn⟩ := hj
  obtain ⟨a2, c2, ha2, _, _, hik, hc2, hq2, hw2, hn2⟩ := hk
  rw [ha] at ha2; cases ha2
  rcases Nat.lt_trichotomy j k with h | h | h
  · have := hn2 j c hij h hc
    rw [hq] at this; cases this
  · exact h
  · have := hn k c2 hik h hc2
    rw [hq2] at this; cases this

theorem matchUpTo_succ (ct : Int) (s : List Node) (k : Nat) :
    matchUpTo ct s (k + 1) = matchStep ct (matchUpTo ct s k) k := by
  simp [matchUpTo, List.range_succ, List.foldl_append]

theorem matchUpTo_zero (ct : Int) (s : List Node) : matchUpTo ct s 0 = s := by
  simp [matchUpTo]

/-- What one linking iteration leaves at each position. -/
theorem link_getElem? (s : List Node) (i j k : Nat) (hij : i ≠ j) :
    (setMatched (setMatched s i j) j i)[k]? =
      if k = j then (s[k]?).map (fun n => n.link i)
      else if k = i then (s[k]?).map (fun n => n.link j)
      else s[k]? := by
  rw [setMatched_getElem?]
  by_cases hkj : k = j
  · subst hkj
    have : k ≠ i := fun h => hij h.symm
    simp [setMatched_getElem?, this]
  · simp [hkj, setMatched_getElem?]

theorem qualifies_iff (a c : Node) :
    qualifies a c = true ↔
      a.midi_value = c.midi_value ∧ a.type ≠ c.type ∧ a.matched = none ∧ c.matched = none := by
  simp [qualifies, and_assoc]

theorem linkAt_eq_some_iff (s : List Node) (m q : Nat) :
    linkAt s m = some q ↔ ∃ a, s[m]? = some a ∧ a.matched = some q := by
  unfold linkAt
  cases s[m]? <;> simp

theorem linkAt_eq_none_of (s : List Node) (m : Nat) (a : Node)
    (h : s[m]? = some a) (hm : a.matched = none) : linkAt s m = none := by
  simp [linkAt, h, hm]

theorem StepLink_lt {ct : Int} {s : List Node} {i j : Nat} (h : StepLink ct s i j) : i < j := by
  obtain ⟨a, c, _, _, _, hij, _⟩ := h
  exact hij

theorem StepLink_linkAt {ct : Int} {s : List Node} {i j : Nat} (h : StepLink ct s i j) :
    linkAt s i = none ∧ linkAt s j = none := by
  obtain ⟨a, c, ha, hm, _, _, hc, hq, _, _⟩ := h
  have := (qualifies_iff a c).1 hq
  exact ⟨linkAt_eq_none_of s i a ha hm, linkAt_eq_none_of s j c hc this.2.2.2⟩

theorem linkAt_link (s : List Node) (i j m : Nat) (hij : i ≠ j) :
    linkAt (setMatched (setMatched s i j) j i) m =
      if m = j then (s[m]?).map (fun _ => i)
      else if m = i then (s[m]?).map (fun _ => j)
      else linkAt s m := by
  unfold linkAt
  rw [link_getElem? s i j m hij]
  by_cases h1 : m = j
  · simp only [h1, if_true]
    cases s[j]? <;> simp [Node.link]
  · simp only [h1, if_false]
    by_cases h2 : m = i
    · simp only [h2, if_true]
      cases s[i]? <;> simp [Node.link]
    · simp only [h2, if_false]

/-- The effect of one iteration of the outer loop on the match link at position `m`:
either it is unchanged, or it was `nullptr` and the iteration linked `m` as the scanning
node or as the partner found. -/
theorem matchStep_linkAt (ct : Int) (s : List Node) (i m : Nat) :
    linkAt (matchStep ct s i) m = linkAt s m ∨
    (linkAt s m = none ∧ ∃ j, StepLink ct s i j ∧
      ((m = i ∧ linkAt (matchStep ct s i) m = some j) ∨
       (m = j ∧ linkAt (matchStep ct s i) m = some i))) := by
  rcases matchStep_cases ct s i with ⟨h, _⟩ | ⟨j, hj, h⟩
  · left; rw [h]
  · have hij := StepLink_lt hj
    have hl := StepLink_linkAt hj
    obtain ⟨a, c, ha, _, _, _, hc, _⟩ := id hj
    rw [h, linkAt_link s i j m (by omega)]
    by_cases h1 : m = j
    · right
      subst h1
      refine ⟨hl.2, m, hj, Or.inr ⟨rfl, ?_⟩⟩
      simp [hc]
    · by_cases h2 : m = i
      · right
        subst h2
        refine ⟨hl.1, j, hj, Or.inl ⟨rfl, ?_⟩⟩
        simp [h1, ha]
      · left
        simp [h1, h2]

theorem matchStep_linkAt_of_StepLink {ct : Int} {s : List Node} {i j : Nat}
    (h : StepLink ct s i j) :
    linkAt (matchStep ct s i) i = some j ∧ linkAt (matchStep ct s i) j = some i := by
  rcases matchStep_cases ct s i with ⟨_, hno⟩ | ⟨k, hk, he⟩
  · exact absurd h (hno j)
  · have hjk := StepLink_unique h hk
    subst hjk
    have hij := StepLink_lt h
    obtain ⟨a, c, ha, _, _, _, hc, _⟩ := h
    rw [he, linkAt_link s i j i (by omega), linkAt_link s i j j (by omega)]
    have : i ≠ j := by omega
    simp [this, ha, hc]

theorem matchStep_eq_of_no_StepLink {ct : Int} {s : List Node} {i : Nat}
    (h : ∀ j, ¬ StepLink ct s i j) : matchStep ct s i = s := by
  rcases matchStep_cases ct s i with ⟨he, _⟩ | ⟨k, hk, _⟩
  · exact he
  · exact absurd hk (h k)

theorem matchStep_length (ct : Int) (s : List Node) (i : Nat) :
    (matchStep ct s i).length = s.length := by
  rcases matchStep_cases ct s i with ⟨h, _⟩ | ⟨j, _, h⟩
  · rw [h]
  · rw [h, setMatched_length, setMatched_length]

theorem matchStep_unlinked (ct : Int) (s : List Node) (i m : Nat) :
    ((matchStep ct s i)[m]?).map Node.unlinked = (s[m]?).map Node.unlinked := by
  rcases matchStep_cases ct s i with ⟨h, _⟩ | ⟨j, hj, h⟩
  · rw [h]
  · rw [h, link_getElem? s i j m (by have := StepLink_lt hj; omega)]
    by_cases h1 : m = j
    · simp only [h1, if_true]
      cases s[j]? <;> simp [Node.link, Node.unlinked]
    · simp only [h1, if_false]
      by_cases h2 : m = i
      · simp only [h2, if_true]
        cases s[i]? <;> simp [Node.link, Node.unlinked]
      · simp only [h2, if_false]

theorem matchStep_frozen (ct : Int) (s : List Node) (i m : Nat) (hm : m < i) :
    (matchStep ct s i)[m]? = s[m]? := by
  rcases matchStep_cases ct s i with ⟨h, _⟩ | ⟨j, hj, h⟩
  · rw [h]
  · have := StepLink_lt hj
    rw [h, link_getElem? s i j m (by omega)]
    have h1 : m ≠ j := by omega
    have h2 : m ≠ i := by omega
    simp [h1, h2]

theorem matchStep_linkAt_mono {ct : Int} {s : List Node} {i m q : Nat}
    (h : linkAt s m = some q) : linkAt (matchStep ct s i) m = some q := by
  rcases matchStep_linkAt ct s i m with he | ⟨hn, _⟩
  · rw [he, h]
  · rw [h] at hn; cases hn

theorem matchStep_mutual {ct : Int} {s : List Node} (i : Nat) (h : Mutual s) :
    Mutual (matchStep ct s i) := by
  intro m q hmq
  rcases matchStep_linkAt ct s i m with he | ⟨_, j, hj, ⟨hm, hl⟩ | ⟨hm, hl⟩⟩
  · rw [he] at hmq
    exact matchStep_linkAt_mono (h m q hmq)
  · rw [hl] at hmq; cases hmq
    rw [hm]
    exact (matchStep_linkAt_of_StepLink hj).2
  · rw [hl] at hmq; cases hmq
    rw [hm]
    exact (matchStep_linkAt_of_StepLink hj).1

/-! ## The matching pass: the state after `k` iterations -/

theorem matchUpTo_length (ct : Int) (s : List Node) (k : Nat) :
    (matchUpTo ct s k).length = s.length := by
  induction k with
  | zero => rw [matchUpTo_zero]
  | succ k ih => rw [matchUpTo_succ, matchStep_length, ih]

theorem matchUpTo_unlinked (ct : Int) (s : List Node) (k m : Nat) :
    ((matchUpTo ct s k)[m]?).map Node.unlinked = (s[m]?).map Node.unlinked := by
  induction k with
  | zero => rw [matchUpTo_zero]
  | succ k ih => rw [matchUpTo_succ, matchStep_unlinked, ih]

theorem matchUpTo_linkAt_mono {ct : Int} {s : List Node} {k k2 m q : Nat} (hk : k ≤ k2)
    (h : linkAt (matchUpTo ct s k) m = some q) : linkAt (matchUpTo ct s k2) m = some q := by
  induction k2 with
  | zero =>
    have : k = 0 := by omega
    subst this; exact h
  | succ n ih =>
    by_cases hkn : k = n + 1
    · subst hkn; exact h
    · rw [matchUpTo_succ]
      exact matchStep_linkAt_mono (ih (by omega))

theorem matchUpTo_frozen {ct : Int} {s : List Node} {k k2 m : Nat} (hm : m < k) (hk : k ≤ k2) :
    (matchUpTo ct s k2)[m]? = (matchUpTo ct s k)[m]? := by
  induction k2 with
  | zero => omega
  | succ n ih =>
    by_cases hkn : k = n + 1
    · subst hkn; rfl
    · rw [matchUpTo_succ, matchStep_frozen ct _ n m (by omega)]
      exact ih (by omega)

theorem matchUpTo_mutual {ct : Int} {s : List Node} (k : Nat) (h : Mutual s) :
    Mutual (matchUpTo ct s k) := by
  induction k with
  | zero => rw [matchUpTo_zero]; exact h
  | succ k ih => rw [matchUpTo_succ]; exact matchStep_mutual k ih

theorem matchUpTo_linkAt_of_entry (ct : Int) {s : List Node} (k : Nat) {m q : Nat}
    (h : linkAt s m = some q) : linkAt (matchUpTo ct s k) m = some q := by
  have h0 : linkAt (matchUpTo ct s 0) m = some q := by rw [matchUpTo_zero]; exact h
  exact matchUpTo_linkAt_mono (Nat.zero_le k) h0

theorem matchUpTo_entry_none {ct : Int} {s : List Node} {k m : Nat}
    (h : linkAt (matchUpTo ct s k) m = none) : linkAt s m = none := by
  cases hs : linkAt s m with
  | none => rfl
  | some x =>
    have h2 : linkAt (matchUpTo ct s k) m = some x := matchUpTo_linkAt_of_entry ct k hs
    rw [h] at h2; cases h2

/-- Where a link found after `k` iterations comes from: it was there on entry, or one of
the two nodes was the scanning node of an earlier iteration and the other the partner
that iteration found. -/
theorem matchUpTo_provenance {ct : Int} {s : List Node} {k m q : Nat}
    (h : linkAt (matchUpTo ct s k) m = some q) :
    linkAt s m = some q ∨
    (linkAt s m = none ∧
      ((m < k ∧ StepLink ct (matchUpTo ct s m) m q) ∨
       (q < k ∧ StepLink ct (matchUpTo ct s q) q m))) := by
  induction k with
  | zero => left; rwa [matchUpTo_zero] at h
  | succ k ih =>
    rw [matchUpTo_succ] at h
    rcases matchStep_linkAt ct (matchUpTo ct s k) k m with he | ⟨hn, j, hj, ⟨hm, hl⟩ | ⟨hm, hl⟩⟩
    · rw [he] at h
      rcases ih h with h1 | ⟨h0, ⟨h2, h3⟩ | ⟨h2, h3⟩⟩
      · exact Or.inl h1
      · exact Or.inr ⟨h0, Or.inl ⟨by omega, h3⟩⟩
      · exact Or.inr ⟨h0, Or.inr ⟨by omega, h3⟩⟩
    · have h0 : linkAt s m = none := matchUpTo_entry_none hn
      rw [hl] at h; cases h
      subst hm
      exact Or.inr ⟨h0, Or.inl ⟨by omega, hj⟩⟩
    · have h0 : linkAt s m = none := matchUpTo_entry_none hn
      rw [hl] at h; cases h
      subst hm
      exact Or.inr ⟨h0, Or.inr ⟨by omega, hj⟩⟩

/-- The fields other than `matched` are those of the node on entry. -/
theorem matchUpTo_fields {ct : Int} {s : List Node} {k m : Nat} {b : Node}
    (h : (matchUpTo ct s k)[m]? = some b) :
    ∃ a, s[m]? = some a ∧ a.type = b.type ∧ a.time = b.time ∧
      a.midi_value = b.midi_value ∧ a.velocity = b.velocity := by
  have hu := matchUpTo_unlinked ct s k m
  rw [h] at hu
  cases hs : s[m]? with
  | none => rw [hs] at hu; simp at hu
  | some a =>
    rw [hs] at hu
    simp only [Option.map_some'] at hu
    have e : b.unlinked = a.unlinked := Option.some.inj hu
    refine ⟨a, rfl, ?_, ?_, ?_, ?_⟩
    · have := congrArg Node.type e; simpa [Node.unlinked] using this.symm
    · have := congrArg Node.time e; simpa [Node.unlinked] using this.symm
    · have := congrArg Node.midi_value e; simpa [Node.unlinked] using this.symm
    · have := congrArg Node.velocity e; simpa [Node.unlinked] using this.symm

theorem matchUpTo_fields_of_entry (ct : Int) {s : List Node} (k : Nat) {m : Nat} {a : Node}
    (h : s[m]? = some a) :
    ∃ b, (matchUpTo ct s k)[m]? = some b ∧ a.type = b.type ∧ a.time = b.time ∧
      a.midi_value = b.midi_value ∧ a.velocity = b.velocity := by
  cases hb : (matchUpTo ct s k)[m]? with
  | none =>
    have hu := matchUpTo_unlinked ct s k m
    rw [hb, h] at hu; simp at hu
  | some b =>
    obtain ⟨a2, ha2, h1, h2, h3, h4⟩ := matchUpTo_fields hb
    rw [h] at ha2; cases ha2
    exact ⟨b, rfl, h1, h2, h3, h4⟩

theorem linkAt_of_unmatched {s : List Node} (h : ∀ n ∈ s, n.matched = none) (m : Nat) :
    linkAt s m = none := by
  unfold linkAt
  cases hm : s[m]? with
  | none => rfl
  | some a => exact h a (List.getElem?_mem hm)

theorem mutual_of_unmatched {s : List Node} (h : ∀ n ∈ s, n.matched = none) : Mutual s := by
  intro m q hmq
  rw [linkAt_of_unmatched h m] at hmq
  cases hmq

theorem nonDecreasing_getElem? {s : List Node} (h : NonDecreasing s) {i j : Nat} {x y : Node}
    (hij : i ≤ j) (hx : s[i]? = some x) (hy : s[j]? = some y) : x.time ≤ y.time := by
  rcases Nat.eq_or_lt_of_le hij with e | hlt
  · subst e
    rw [hx] at hy; cases hy
    exact le_refl _
  · obtain ⟨hi, rfl⟩ := List.getElem?_eq_some.1 hx
    obtain ⟨hj, rfl⟩ := List.getElem?_eq_some.1 hy
    exact (List.pairwise_iff_getElem.1 h) i j hi hj hlt

/-- A link made by an iteration, read on the list as it was on entry. -/
theorem StepLink_entry {ct : Int} {s : List Node} {k i j : Nat}
    (h : StepLink ct (matchUpTo ct s k) i j) :
    i < j ∧ ∃ x y, s[i]? = some x ∧ s[j]? = some y ∧ x.midi_value = y.midi_value ∧
      x.type ≠ y.type ∧ y.time - x.time < time_epsilon ∧ x.time < ct - time_epsilon := by
  obtain ⟨a, c, ha, _, ht, hij, hc, hq, hw, _⟩ := h
  obtain ⟨x, hx, x1, x2, x3, _⟩ := matchUpTo_fields ha
  obtain ⟨y, hy, y1, y2, y3, _⟩ := matchUpTo_fields hc
  obtain ⟨q1, q2, _, _⟩ := (qualifies_iff a c).1 hq
  have hwj := hw j c hij (le_refl _) hc
  refine ⟨hij, x, y, hx, hy, ?_, ?_, ?_, ?_⟩
  · rw [x3, y3]; exact q1
  · rw [x1, y1]; exact q2
  · rw [x2, y2]; exact hwj
  · rw [x2]; exact ht

/-- Every link that the pass sets joins two nodes of the entry list of equal
`midi_value` and different `type`; the one that comes first in the list has a closed
window and the other one is less than `time_epsilon` later. -/
theorem matchUpTo_new_link {ct : Int} {s : List Node} {k m q : Nat}
    (h : linkAt (matchUpTo ct s k) m = some q) (h0 : linkAt s m = none) :
    ∃ x y, s[m]? = some x ∧ s[q]? = some y ∧ x.midi_value = y.midi_value ∧ x.type ≠ y.type ∧
      ((m < q ∧ y.time - x.time < time_epsilon ∧ x.time < ct - time_epsilon) ∨
       (q < m ∧ x.time - y.time < time_epsilon ∧ y.time < ct - time_epsilon)) := by
  rcases matchUpTo_provenance h with h1 | ⟨_, ⟨_, h3⟩ | ⟨_, h3⟩⟩
  · rw [h0] at h1; cases h1
  · obtain ⟨hlt, x, y, hx, hy, e1, e2, e3, e4⟩ := StepLink_entry h3
    exact ⟨x, y, hx, hy, e1, e2, Or.inl ⟨hlt, e3, e4⟩⟩
  · obtain ⟨hlt, x, y, hx, hy, e1, e2, e3, e4⟩ := StepLink_entry h3
    exact ⟨y, x, hy, hx, e1.symm, fun e => e2 e.symm, Or.inr ⟨hlt, e3, e4⟩⟩

theorem mutual_injective {s : List Node} (h : Mutual s) {i j p : Nat}
    (hi : linkAt s i = some p) (hj : linkAt s j = some p) : i = j := by
  have h1 := h i p hi
  have h2 := h j p hj
  rw [h1] at h2
  exact Option.some.inj h2

theorem StepLink_entry_unmatched {ct : Int} {s : List Node} {k i j : Nat}
    (h : StepLink ct (matchUpTo ct s k) i j) : linkAt s i = none ∧ linkAt s j = none :=
  ⟨matchUpTo_entry_none (StepLink_linkAt h).1, matchUpTo_entry_none (StepLink_linkAt h).2⟩

theorem mem_evict (ct : Int) (l : List Node) (b : Node) :
    b ∈ evict ct l ↔ b ∈ l ∧ evicted ct b = false := by
  simp [evict, List.mem_filter]

theorem evicted_eq_false_iff (ct : Int) (b : Node) :
    evicted ct b = false ↔ ct - time_epsilon ≤ b.time ∧ b.matched = none := by
  simp [evicted]

theorem StepLink_iff_FirstCandidate {ct : Int} {s : List Node} {i : Nat} {a : Node}
    (ha : s[i]? = some a) (hm : a.matched = none) (ht : a.time < ct - time_epsilon) (j : Nat) :
    StepLink ct s i j ↔ FirstCandidate s i j := by
  constructor
  · rintro ⟨a2, c, ha2, _, _, hij, hc, hq, hw, hn⟩
    rw [ha] at ha2; cases ha2
    obtain ⟨q1, q2, _, q4⟩ := (qualifies_iff a c).1 hq
    refine ⟨hij, a, c, ha, hc, ⟨q4, q1.symm, fun e => q2 e.symm⟩, hw, ?_⟩
    rintro m d him hmj hd ⟨d1, d2, d3⟩
    have hf := hn m d him hmj hd
    have ht2 : qualifies a d = true :=
      (qualifies_iff a d).2 ⟨d2.symm, fun e => d3 e.symm, hm, d1⟩
    rw [hf] at ht2; cases ht2
  · rintro ⟨hij, a2, c, ha2, hc, ⟨c1, c2, c3⟩, hw, hn⟩
    rw [ha] at ha2; cases ha2
    refine ⟨a, c, ha, hm, ht, hij, hc,
      (qualifies_iff a c).2 ⟨c2.symm, fun e => c3 e.symm, hm, c1⟩, hw, ?_⟩
    intro m d him hmj hd
    cases hq : qualifies a d with
    | false => rfl
    | true =>
      obtain ⟨q1, q2, _, q4⟩ := (qualifies_iff a d).1 hq
      exact absurd ⟨q4, q1.symm, fun e => q2 e.symm⟩ (hn m d him hmj hd)

/-- A scanning node that has a qualifying node inside its window is linked by its
iteration (to that node or to an earlier qualifying one). -/
theorem exists_StepLink (ct : Int) {s : List Node} {i : Nat} {a : Node}
    (ha : s[i]? = some a) (hm : a.matched = none) (ht : a.time < ct - time_epsilon) :
    ∀ c d, i < c → s[c]? = some d → qualifies a d = true →
      (∀ m x, i < m → m ≤ c → s[m]? = some x → x.time - a.time < time_epsilon) →
      ∃ j, StepLink ct s i j := by
  intro c
  induction c using Nat.strong_induction_on with
  | _ c ih =>
    intro d hic hd hq hw
    by_cases hex : ∃ m x, i < m ∧ m < c ∧ s[m]? = some x ∧ qualifies a x = true
    · obtain ⟨m, x, him, hmc, hx, hqx⟩ := hex
      exact ih m hmc x him hx hqx
        (fun m2 x2 h1 h2 h3 => hw m2 x2 h1 (by omega) h3)
    · refine ⟨c, a, d, ha, hm, ht, hic, hd, hq, hw, ?_⟩
      intro m x him hmc hx
      cases hqx : qualifies a x with
      | false => rfl
      | true => exact absurd ⟨m, x, him, hmc, hx, hqx⟩ hex

theorem matchUpTo_link_of_StepLink {ct : Int} {s : List Node} {i j k : Nat}
    (h : StepLink ct (matchUpTo ct s i) i j) (hk : i < k) :
    linkAt (matchUpTo ct s k) i = some j ∧ linkAt (matchUpTo ct s k) j = some i := by
  have h1 := matchStep_linkAt_of_StepLink h
  rw [← matchUpTo_succ] at h1
  exact ⟨matchUpTo_linkAt_mono (by omega) h1.1, matchUpTo_linkAt_mono (by omega) h1.2⟩

theorem matchUpTo_same_of_no_StepLink {ct : Int} {s : List Node} {i k : Nat}
    (h : ∀ j, ¬ StepLink ct (matchUpTo ct s i) i j) (hk : i ≤ k) :
    (matchUpTo ct s k)[i]? = (matchUpTo ct s i)[i]? := by
  rcases Nat.eq_or_lt_of_le hk with e | hlt
  · rw [e]
  · rw [matchUpTo_frozen (Nat.lt_succ_self i) (by omega : i + 1 ≤ k), matchUpTo_succ,
      matchStep_eq_of_no_StepLink h]

/-- A node that is unmatched after `k` iterations, `k` beyond its position, was not
linked by its own iteration. -/
theorem no_StepLink_of_unmatched {ct : Int} {s : List Node} {i k : Nat} (hk : i < k)
    (h : linkAt (matchUpTo ct s k) i = none) (j : Nat) :
    ¬ StepLink ct (matchUpTo ct s i) i j := by
  intro hj
  have := (matchUpTo_link_of_StepLink hj hk).1
  rw [h] at this; cases this

theorem mem_callbacksFrom (ct : Int) (l : List Node) (b : Nat) (c : Bool × Nat) :
    c ∈ callbacksFrom ct l b ↔
      ∃ m n, l[m]? = some n ∧ c.2 = b + m ∧
        ((c.1 = true ∧ n.matched ≠ none ∧ n.type = NODE_TYPE_GROUND_TRUTH) ∨
         (c.1 = false ∧ n.matched = none ∧ n.time < ct - time_epsilon)) := by
  induction l generalizing b with
  | nil => simp [callbacksFrom]
  | cons a l ih =>
    rw [callbacksFrom, List.mem_append, ih]
    constructor
    · rintro (h | ⟨m, n, hn, hc, hor⟩)
      · refine ⟨0, a, by simp, ?_⟩
        unfold nodeCallbacks at h
        rw [List.mem_append] at h
        rcases h with h | h
        · split at h
          · next hcond =>
            simp only [List.mem_singleton] at h
            subst h
            exact ⟨rfl, Or.inl ⟨rfl, hcond.1, hcond.2⟩⟩
          · simp at h
        · split at h
          · next hcond =>
            simp only [List.mem_singleton] at h
            subst h
            exact ⟨rfl, Or.inr ⟨rfl, hcond.1, hcond.2⟩⟩
          · simp at h
      · exact ⟨m + 1, n, by simpa using hn, by omega, hor⟩
    · rintro ⟨m, n, hn, hc, hor⟩
      cases m with
      | zero =>
        left
        simp only [List.getElem?_cons_zero, Option.some.injEq] at hn
        subst hn
        unfold nodeCallbacks
        rw [List.mem_append]
        obtain ⟨c1, c2⟩ := c
        simp only [Nat.add_zero] at hc
        subst hc
        rcases hor with ⟨h1, h2, h3⟩ | ⟨h1, h2, h3⟩
        · left
          simp only at h1; subst h1
          rw [if_pos ⟨h2, h3⟩]; simp
        · right
          simp only at h1; subst h1
          rw [if_pos ⟨h2, h3⟩]; simp
      | succ m =>
        right
        refine ⟨m, n, by simpa using hn, by omega, hor⟩

/-! ## Claims about the matching pass -/

/-- C2: on a pending sequence that is non-decreasing in time with every event unmatched
on entry, every link the matching pass of `match_nodes` leaves joins two events of the
list that point at each other, have different `type`, equal `midi_value`, and times less
than `time_epsilon` apart. -/
theorem matchPass_links_valid (nodes : List Node) (current_time : Int)
    (hs : NonDecreasing nodes) (hu : ∀ n ∈ nodes, n.matched = none)
    (i j : Nat) (a : Node)
    (ha : (matchPass current_time nodes)[i]? = some a) (hl : a.matched = some j) :
    ∃ b, (matchPass current_time nodes)[j]? = some b ∧ b.matched = some i ∧
      a.type ≠ b.type ∧ a.midi_value = b.midi_value ∧ |a.time - b.time| < time_epsilon := by
  have hij : linkAt (matchPass current_time nodes) i = some j :=
    (linkAt_eq_some_iff _ _ _).2 ⟨a, ha, hl⟩
  have hji := matchUpTo_mutual nodes.length (mutual_of_unmatched hu) i j hij
  obtain ⟨b, hb, hbm⟩ := (linkAt_eq_some_iff _ _ _).1 hji
  obtain ⟨x, y, hx, hy, e1, e2, hor⟩ := matchUpTo_new_link hij (linkAt_of_unmatched hu i)
  obtain ⟨x2, hx2, a1, a2, a3, _⟩ := matchUpTo_fields ha
  obtain ⟨y2, hy2, b1, b2, b3, _⟩ := matchUpTo_fields hb
  rw [hx] at hx2; cases hx2
  rw [hy] at hy2; cases hy2
  refine ⟨b, hb, hbm, ?_, ?_, ?_⟩
  · rw [← a1, ← b1]; exact e2
  · rw [← a3, ← b3]; exact e1
  · rw [← a2, ← b2, abs_lt]
    rcases hor with ⟨hlt, h1, _⟩ | ⟨hlt, h1, _⟩
    · have := nonDecreasing_getElem? hs (Nat.le_of_lt hlt) hx hy
      have he : (0 : Int) < time_epsilon := by decide
      constructor <;> omega
    · have := nonDecreasing_getElem? hs (Nat.le_of_lt hlt) hy hx
      have he : (0 : Int) < time_epsilon := by decide
      constructor <;> omega

theorem matchPass_links_valid_witness :
    ∃ b, (matchPass 601 [⟨0, 500, 64, 1, none⟩, ⟨1, 540, 64, 1, none⟩])[1]? = some b ∧
      b.matched = some 0 ∧
      (⟨0, 500, 64, 1, some 1⟩ : Node).type ≠ b.type ∧
      (⟨0, 500, 64, 1, some 1⟩ : Node).midi_value = b.midi_value ∧
      |(⟨0, 500, 64, 1, some 1⟩ : Node).time - b.time| < time_epsilon :=
  matchPass_links_valid [⟨0, 500, 64, 1, none⟩, ⟨1, 540, 64, 1, none⟩] 601
    (by decide) (by decide) 0 1 ⟨0, 500, 64, 1, some 1⟩ (by decide) rfl

/-- C9: mutual match invariant.  In the data model a match link, when set, points at
another event of the pending sequence.  When the links are mutual on entry (`A.matched =
B` implies `B.matched = A`, and no event points at itself), after the matching pass of
`match_nodes` they are still mutual, no event is linked to itself, no two events are
linked to the same partner, and a link that is set at some point of the pass, on entry
included, is the same at every later point of the pass: it is never changed or cleared.
In particular all of this holds when every event is unmatched on entry. -/
theorem matchPass_mutual :
    (∀ (nodes : List Node) (current_time : Int),
      Mutual nodes → (∀ i, linkAt nodes i ≠ some i) →
      Mutual (matchPass current_time nodes) ∧
      (∀ i, linkAt (matchPass current_time nodes) i ≠ some i) ∧
      (∀ i j p, linkAt (matchPass current_time nodes) i = some p →
        linkAt (matchPass current_time nodes) j = some p → i = j) ∧
      (∀ k k2 m q, k ≤ k2 → linkAt (matchUpTo current_time nodes k) m = some q →
        linkAt (matchUpTo current_time nodes k2) m = some q)) ∧
    (∀ (nodes : List Node) (current_time : Int),
      (∀ n ∈ nodes, n.matched = none) →
      Mutual (matchPass current_time nodes) ∧
      (∀ i, linkAt (matchPass current_time nodes) i ≠ some i) ∧
      (∀ i j p, linkAt (matchPass current_time nodes) i = some p →
        linkAt (matchPass current_time nodes) j = some p → i = j) ∧
      (∀ k k2 m q, k ≤ k2 → linkAt (matchUpTo current_time nodes k) m = some q →
        linkAt (matchUpTo current_time nodes k2) m = some q)) := by
  have main : ∀ (nodes : List Node) (current_time : Int),
      Mutual nodes → (∀ i, linkAt nodes i ≠ some i) →
      Mutual (matchPass current_time nodes) ∧
      (∀ i, linkAt (matchPass current_time nodes) i ≠ some i) ∧
      (∀ i j p, linkAt (matchPass current_time nodes) i = some p →
        linkAt (matchPass current_time nodes) j = some p → i = j) ∧
      (∀ k k2 m q, k ≤ k2 → linkAt (matchUpTo current_time nodes k) m = some q →
        linkAt (matchUpTo current_time nodes k2) m = some q) := by
    intro nodes current_time h hother
    have hm : Mutual (matchPass current_time nodes) := matchUpTo_mutual nodes.length h
    refine ⟨hm, ?_, ?_, ?_⟩
    · intro i hi
      rcases matchUpTo_provenance hi with h1 | ⟨_, ⟨_, h3⟩ | ⟨_, h3⟩⟩
      · exact hother i h1
      · exact absurd (StepLink_lt h3) (lt_irrefl _)
      · exact absurd (StepLink_lt h3) (lt_irrefl _)
    · intro i j p hi hj
      exact mutual_injective hm hi hj
    · intro k k2 m q hk hl
      exact matchUpTo_linkAt_mono hk hl
  refine ⟨main, ?_⟩
  intro nodes current_time hu
  refine main nodes current_time (mutual_of_unmatched hu) ?_
  intro i hi
  rw [linkAt_of_unmatched hu i] at hi
  cases hi

theorem matchPass_mutual_witness :
    Mutual (matchPass 601
      [⟨0, 500, 64, 1, some 1⟩, ⟨1, 540, 64, 1, some 0⟩, ⟨0, 300, 60, 1, none⟩]) ∧
    (∀ i, linkAt (matchPass 601
      [⟨0, 500, 64, 1, some 1⟩, ⟨1, 540, 64, 1, some 0⟩, ⟨0, 300, 60, 1, none⟩]) i ≠ some i) := by
  have h := matchPass_mutual.1
    [⟨0, 500, 64, 1, some 1⟩, ⟨1, 540, 64, 1, some 0⟩, ⟨0, 300, 60, 1, none⟩] 601
    (by
      intro m q h
      match m, h with
      | 0, h =>
        have : q = 1 := by simpa [linkAt] using h.symm
        subst this; rfl
      | 1, h =>
        have : q = 0 := by simpa [linkAt] using h.symm
        subst this; rfl
      | 2, h => simp [linkAt] at h
      | m + 3, h => simp [linkAt] at h)
    (by
      intro i h
      match i, h with
      | 0, h => simp [linkAt] at h
      | 1, h => simp [linkAt] at h
      | 2, h => simp [linkAt] at h
      | i + 3, h => simp [linkAt] at h)
  exact ⟨h.1, h.2.1⟩

/-- C8 as stated fails: with pending [OBS t=500 v=64, REF t=540 v=64] at
`current_time = 601` the window of the second event is still open
(`540 ≥ 601 - 100`), yet the call links it to the first event and removes it. -/
theorem open_window_counterexample :
    (540 : Int) ≥ 601 - time_epsilon ∧
    ([⟨1, 500, 64, 1, none⟩, ⟨0, 540, 64, 1, none⟩] : List Node)[1]? =
      some ⟨0, 540, 64, 1, none⟩ ∧
    (match_nodes [⟨1, 500, 64, 1, none⟩, ⟨0, 540, 64, 1, none⟩] 601).linked[1]? =
      some ⟨0, 540, 64, 1, some 0⟩ ∧
    (match_nodes [⟨1, 500, 64, 1, none⟩, ⟨0, 540, 64, 1, none⟩] 601).pending = [] := by
  decide

/-- C8, amended: an event whose window has not yet closed at this tick
(`time ≥ current_time - time_epsilon`) is never the scanning event of the pass.  Its
fields other than `matched` are untouched, and its match link after the call is the one
it had before, unless it was unmatched and an event before it in the pending sequence,
unmatched on entry, with a closed window, the same `midi_value`, a different `type` and a
time less than `time_epsilon` earlier, took it as its partner.  It is still in the
pending sequence after the call exactly when it is unmatched after the matching pass. -/
theorem open_window_event_frame (nodes : List Node) (current_time : Int) (i : Nat) (a : Node)
    (ha : nodes[i]? = some a) (hw : a.time ≥ current_time - time_epsilon) :
    ∃ b, (match_nodes nodes current_time).linked[i]? = some b ∧ b.unlinked = a.unlinked ∧
      (b.matched = a.matched ∨
        (a.matched = none ∧ ∃ k x, b.matched = some k ∧ k < i ∧ nodes[k]? = some x ∧
          x.matched = none ∧ x.time < current_time - time_epsilon ∧
          x.midi_value = a.midi_value ∧ x.type ≠ a.type ∧ a.time - x.time < time_epsilon)) ∧
      (b.matched = none → b ∈ (match_nodes nodes current_time).pending) ∧
      (b.matched ≠ none → b ∉ (match_nodes nodes current_time).pending) := by
  obtain ⟨b, hb, f1, f2, f3, f4⟩ :=
    matchUpTo_fields_of_entry current_time nodes.length ha
  have hb2 : (match_nodes nodes current_time).linked[i]? = some b := hb
  have hlb : linkAt (matchPass current_time nodes) i = b.matched := by
    simp [linkAt, matchPass, hb]
  have hla : linkAt nodes i = a.matched := by simp [linkAt, ha]
  refine ⟨b, hb2, ?_, ?_, ?_, ?_⟩
  · have hu := matchUpTo_unlinked current_time nodes nodes.length i
    rw [hb, ha] at hu
    exact Option.some.inj hu
  · cases hbm : b.matched with
    | none =>
      left
      cases ham : a.matched with
      | none => rfl
      | some q =>
        have := matchUpTo_linkAt_of_entry current_time nodes.length (hla.trans ham)
        rw [show matchUpTo current_time nodes nodes.length = matchPass current_time nodes from rfl,
          hlb, hbm] at this
        cases this
    | some q =>
      have hq : linkAt (matchUpTo current_time nodes nodes.length) i = some q := by
        rw [show matchUpTo current_time nodes nodes.length = matchPass current_time nodes from rfl,
          hlb, hbm]
      rcases matchUpTo_provenance hq with h1 | ⟨h0, ⟨_, h3⟩ | ⟨_, h3⟩⟩
      · left
        rw [← hla, h1]
      · obtain ⟨_, x, y, hx, _, _, _, _, e4⟩ := StepLink_entry h3
        rw [ha] at hx; cases hx
        omega
      · right
        obtain ⟨hlt, x, y, hx, hy, e1, e2, e3, e4⟩ := StepLink_entry h3
        rw [ha] at hy; cases hy
        have hxu := (StepLink_entry_unmatched h3).1
        refine ⟨hla.symm.trans h0, q, x, rfl, hlt, hx, ?_, e4, e1, e2, e3⟩
        simpa [linkAt, hx] using hxu
  · intro hbm
    show b ∈ evict current_time (matchPass current_time nodes)
    rw [mem_evict, evicted_eq_false_iff]
    exact ⟨List.getElem?_mem hb, by rw [← f2]; exact hw, hbm⟩
  · intro hbm
    show b ∉ evict current_time (matchPass current_time nodes)
    rw [mem_evict, evicted_eq_false_iff]
    rintro ⟨_, _, h2⟩
    exact hbm h2

theorem open_window_event_frame_witness :
    ∃ b, (match_nodes [⟨0, 500, 64, 1, none⟩, ⟨1, 540, 64, 1, none⟩] 600).linked[1]? = some b ∧
      b.unlinked = (⟨1, 540, 64, 1, none⟩ : Node).unlinked ∧
      (b.matched = (⟨1, 540, 64, 1, none⟩ : Node).matched ∨
        ((⟨1, 540, 64, 1, none⟩ : Node).matched = none ∧ ∃ k x, b.matched = some k ∧ k < 1 ∧
          ([⟨0, 500, 64, 1, none⟩, ⟨1, 540, 64, 1, none⟩] : List Node)[k]? = some x ∧
          x.matched = none ∧ x.time < 600 - time_epsilon ∧
          x.midi_value = (⟨1, 540, 64, 1, none⟩ : Node).midi_value ∧
          x.type ≠ (⟨1, 540, 64, 1, none⟩ : Node).type ∧
          (⟨1, 540, 64, 1, none⟩ : Node).time - x.time < time_epsilon)) ∧
      (b.matched = none →
        b ∈ (match_nodes [⟨0, 500, 64, 1, none⟩, ⟨1, 540, 64, 1, none⟩] 600).pending) ∧
      (b.matched ≠ none →
        b ∉ (match_nodes [⟨0, 500, 64, 1, none⟩, ⟨1, 540, 64, 1, none⟩] 600).pending) :=
  open_window_event_frame [⟨0, 500, 64, 1, none⟩, ⟨1, 540, 64, 1, none⟩] 600 1
    ⟨1, 540, 64, 1, none⟩ (by decide) (by decide)

/-- C7: when the matching pass of `match_nodes` visits the event at position `i` and
that event is still unmatched with `time < current_time - time_epsilon`, the pass links
it, in that iteration and for the rest of the pass, to its first candidate: the first
event after it that is unmatched at that moment, has the same `midi_value` and a
different `type`, and lies before the first later event whose time minus the event's
time is at least `time_epsilon`; the candidate is linked back to it; and if there is no
such event it is unmatched after the pass.  The choice is by position: with pending
[REF t=1000 v=60, OBS t=1040 v=60, OBS t=1010 v=60] at `current_time = 1101` the
reference event is linked to the observed event at 1040 and the one at 1010 stays
unmatched. -/
theorem greedy_first_candidate :
    (∀ (nodes : List Node) (current_time : Int) (i : Nat) (a : Node),
      (matchUpTo current_time nodes i)[i]? = some a → a.matched = none →
      a.time < current_time - time_epsilon →
      (∀ j, linkAt (matchPass current_time nodes) i = some j ↔
        FirstCandidate (matchUpTo current_time nodes i) i j) ∧
      (∀ j, FirstCandidate (matchUpTo current_time nodes i) i j →
        linkAt (matchUpTo current_time nodes (i + 1)) i = some j ∧
        linkAt (matchUpTo current_time nodes (i + 1)) j = some i ∧
        linkAt (matchPass current_time nodes) j = some i) ∧
      ((∀ j, ¬ FirstCandidate (matchUpTo current_time nodes i) i j) →
        linkAt (matchPass current_time nodes) i = none)) ∧
    (matchPass 1101
        [⟨0, 1000, 60, 1, none⟩, ⟨1, 1040, 60, 1, none⟩, ⟨1, 1010, 60, 1, none⟩]).map
      (fun n => n.matched) = [some 1, some 0, none] := by
  refine ⟨?_, by decide⟩
  intro nodes ct i a ha hm ht
  have hi : i < nodes.length := by
    have := (List.getElem?_eq_some.1 ha).1
    rwa [matchUpTo_length] at this
  have hfwd : ∀ j, FirstCandidate (matchUpTo ct nodes i) i j →
      StepLink ct (matchUpTo ct nodes i) i j :=
    fun j h => (StepLink_iff_FirstCandidate ha hm ht j).2 h
  have hnone : (∀ j, ¬ StepLink ct (matchUpTo ct nodes i) i j) →
      linkAt (matchPass ct nodes) i = none := by
    intro hno
    have := matchUpTo_same_of_no_StepLink hno (Nat.le_of_lt hi)
    unfold matchPass linkAt
    rw [this, ha]
    exact hm
  refine ⟨?_, ?_, ?_⟩
  · intro j
    constructor
    · intro hl
      rcases matchStep_cases ct (matchUpTo ct nodes i) i with ⟨_, hno⟩ | ⟨j2, hj2, _⟩
      · rw [hnone hno] at hl; cases hl
      · have := (matchUpTo_link_of_StepLink hj2 hi).1
        have e : j2 = j := by
          have h2 : linkAt (matchPass ct nodes) i = some j2 := this
          rw [hl] at h2
          exact (Option.some.inj h2).symm
        subst e
        exact (StepLink_iff_FirstCandidate ha hm ht j2).1 hj2
    · intro hf
      exact (matchUpTo_link_of_StepLink (hfwd j hf) hi).1
  · intro j hf
    have h1 := matchUpTo_link_of_StepLink (hfwd j hf) (Nat.lt_succ_self i)
    exact ⟨h1.1, h1.2, (matchUpTo_link_of_StepLink (hfwd j hf) hi).2⟩
  · intro hno
    exact hnone (fun j hj => hno j ((StepLink_iff_FirstCandidate ha hm ht j).1 hj))

theorem greedy_first_candidate_witness :
    linkAt (matchPass 1101
      [⟨0, 1000, 60, 1, none⟩, ⟨1, 1040, 60, 1, none⟩, ⟨1, 1010, 60, 1, none⟩]) 0 = some 1 :=
  ((greedy_first_candidate.1
      [⟨0, 1000, 60, 1, none⟩, ⟨1, 1040, 60, 1, none⟩, ⟨1, 1010, 60, 1, none⟩] 1101 0
      ⟨0, 1000, 60, 1, none⟩ (by decide) rfl (by decide)).1 1).2
    ⟨by decide, ⟨0, 1000, 60, 1, none⟩, ⟨1, 1040, 60, 1, none⟩, by decide, by decide,
      by decide, fun m d h1 h2 hd => by
        have hm1 : m = 1 := by omega
        subst hm1
        have hd2 : d = ⟨1, 1040, 60, 1, none⟩ := by
          have : some (⟨1, 1040, 60, 1, none⟩ : Node) = some d := hd
          exact (Option.some.inj this).symm
        subst hd2
        decide,
      fun m d h1 h2 _ => by omega⟩

/-- C10: on a pending sequence that is non-decreasing in time (with every event unmatched
on entry or not), if `match_nodes` issues `callback(false, E)`, then after the matching pass the
sequence holds no unmatched event `C` with a type different from that of `E`, the same
`midi_value` and `|C.time - E.time| < time_epsilon`, before or after `E`. -/
theorem no_failure_while_partner_available (nodes : List Node) (current_time : Int)
    (hs : NonDecreasing nodes)
    (e : Nat) (he : (false, e) ∈ (match_nodes nodes current_time).callbacks)
    (E : Node) (hE : (match_nodes nodes current_time).linked[e]? = some E)
    (c : Nat) (C : Node) (hC : (match_nodes nodes current_time).linked[c]? = some C) :
    ¬ (C.matched = none ∧ C.type ≠ E.type ∧ C.midi_value = E.midi_value ∧
        |C.time - E.time| < time_epsilon) := by
  rintro ⟨hCm, hty, hval, habs⟩
  rw [abs_lt] at habs
  have hE2 : (matchUpTo current_time nodes nodes.length)[e]? = some E := hE
  have hC2 : (matchUpTo current_time nodes nodes.length)[c]? = some C := hC
  obtain ⟨m, n, hn, hm, hor⟩ := (mem_callbacksFrom _ _ _ _).1 he
  have hme : m = e := by simpa using hm.symm
  subst hme
  have hn2 : (matchUpTo current_time nodes nodes.length)[m]? = some n := hn
  rw [hE2] at hn2; cases hn2
  rcases hor with ⟨h1, _⟩ | ⟨_, hEm, hEt⟩
  · cases h1
  have hlen := matchUpTo_length current_time nodes
  have hmlt : m < nodes.length := by
    have := (List.getElem?_eq_some.1 hE2).1
    rwa [hlen] at this
  have hclt : c < nodes.length := by
    have := (List.getElem?_eq_some.1 hC2).1
    rwa [hlen] at this
  -- the two nodes as they are on entry
  obtain ⟨E0, hE0, e1, e2, e3, _⟩ := matchUpTo_fields hE2
  obtain ⟨C0, hC0, c1, c2, c3, _⟩ := matchUpTo_fields hC2
  -- what is needed is symmetric in the two positions: `p` scans, `q` is later
  have key : ∀ (p q : Nat) (P Q P0 Q0 : Node), p < q → q < nodes.length →
      (matchUpTo current_time nodes nodes.length)[p]? = some P →
      (matchUpTo current_time nodes nodes.length)[q]? = some Q →
      nodes[p]? = some P0 → nodes[q]? = some Q0 →
      P.matched = none → Q.matched = none →
      P0.type ≠ Q0.type → P0.midi_value = Q0.midi_value →
      Q0.time - P0.time < time_epsilon → P0.time < current_time - time_epsilon → False := by
    intro p q P Q P0 Q0 hpq hq hP hQ hP0 hQ0 hPm hQm hty hval hwin hclosed
    obtain ⟨Pp, hPp, p1, p2, p3, _⟩ := matchUpTo_fields_of_entry current_time p hP0
    obtain ⟨Qp, hQp, q1, q2, q3, _⟩ := matchUpTo_fields_of_entry current_time p hQ0
    have hPl : linkAt (matchUpTo current_time nodes nodes.length) p = none := by
      simp [linkAt, hP, hPm]
    have hQl : linkAt (matchUpTo current_time nodes nodes.length) q = none := by
      simp [linkAt, hQ, hQm]
    have hPpm : Pp.matched = none := by
      cases hx : Pp.matched with
      | none => rfl
      | some x =>
        have h1 : linkAt (matchUpTo current_time nodes p) p = some x := by
          simp [linkAt, hPp, hx]
        have := matchUpTo_linkAt_mono (Nat.le_of_lt (Nat.lt_trans hpq hq)) h1
        rw [hPl] at this; cases this
    have hQpm : Qp.matched = none := by
      cases hx : Qp.matched with
      | none => rfl
      | some x =>
        have h1 : linkAt (matchUpTo current_time nodes p) q = some x := by
          simp [linkAt, hQp, hx]
        have := matchUpTo_linkAt_mono (Nat.le_of_lt (Nat.lt_trans hpq hq)) h1
        rw [hQl] at this; cases this
    have hex := exists_StepLink current_time hPp hPpm (by rw [← p2]; exact hclosed)
      q Qp hpq hQp
      ((qualifies_iff Pp Qp).2 ⟨by rw [← p3, ← q3]; exact hval,
        by rw [← p1, ← q1]; exact hty, hPpm, hQpm⟩)
      (by
        intro m2 x h1 h2 hx
        obtain ⟨x0, hx0, _, x2, _, _⟩ := matchUpTo_fields hx
        have := nonDecreasing_getElem? hs h2 hx0 hQ0
        rw [← x2, ← p2]
        omega)
    obtain ⟨j, hj⟩ := hex
    exact no_StepLink_of_unmatched (Nat.lt_trans hpq hq) hPl j hj
  rcases Nat.lt_trichotomy m c with h | h | h
  · exact key m c E C E0 C0 h hclt hE2 hC2 hE0 hC0 hEm hCm
      (by rw [e1, c1]; exact fun h => hty h.symm) (by rw [e3, c3]; exact hval.symm)
      (by rw [e2, c2]; omega) (by rw [e2]; exact hEt)
  · subst h
    rw [hE2] at hC2; cases hC2
    exact hty rfl
  · have hle := nonDecreasing_getElem? hs (Nat.le_of_lt h) hC0 hE0
    exact key c m C E C0 E0 h hmlt hC2 hE2 hC0 hE0 hCm hEm
      (by rw [e1, c1]; exact hty) (by rw [e3, c3]; exact hval)
      (by rw [e2, c2]; omega) (by rw [c2]; rw [e2] at hle; omega)

theorem no_failure_while_partner_available_witness :
    ¬ ((⟨1, 540, 64, 1, none⟩ : Node).matched = none ∧
        (⟨1, 540, 64, 1, none⟩ : Node).type ≠ (⟨0, 400, 64, 1, none⟩ : Node).type ∧
        (⟨1, 540, 64, 1, none⟩ : Node).midi_value = (⟨0, 400, 64, 1, none⟩ : Node).midi_value ∧
        |(⟨1, 540, 64, 1, none⟩ : Node).time - (⟨0, 400, 64, 1, none⟩ : Node).time|
          < time_epsilon) :=
  no_failure_while_partner_available [⟨0, 400, 64, 1, none⟩, ⟨1, 540, 64, 1, none⟩] 601
    (by decide) 0 (by decide) ⟨0, 400, 64, 1, none⟩ (by decide)
    1 ⟨1, 540, 64, 1, none⟩ (by decide)

/-! ## The merge of a tick -/

theorem mergeLoop_nil_left (fuel : Nat) (ins p : List Node) :
    mergeLoop fuel [] ins p = ([], ins, p) := by
  cases fuel <;> simp [mergeLoop]

theorem mergeLoop_nil_right (fuel : Nat) (gt p : List Node) :
    mergeLoop fuel gt [] p = (gt, [], p) := by
  cases fuel <;> cases gt <;> simp [mergeLoop]

theorem mergeLoop_cons_lt (fuel : Nat) (g i : Node) (gs is p : List Node)
    (h : g.time < i.time) :
    mergeLoop (fuel + 1) (g :: gs) (i :: is) p = mergeLoop fuel gs (i :: is) (p ++ [g]) := by
  simp [mergeLoop, h]

theorem mergeLoop_cons_ge (fuel : Nat) (g i : Node) (gs is p : List Node)
    (h : ¬ g.time < i.time) :
    mergeLoop (fuel + 1) (g :: gs) (i :: is) p = mergeLoop fuel (g :: gs) is (p ++ [i]) := by
  simp [mergeLoop, h]

/-- What the first merge loop does when it is given enough iterations: it moves a
prefix `taken` of `ground_truth` and a prefix `used` of `input_nodes` to the end of
`pending_nodes`, interleaved, and stops with one of the two lists empty. -/
theorem mergeLoop_spec (fuel : Nat) (gt ins p : List Node)
    (hf : gt.length + ins.length ≤ fuel) :
    ∃ taken gt2 used ins2 app, gt = taken ++ gt2 ∧ ins = used ++ ins2 ∧
      mergeLoop fuel gt ins p = (gt2, ins2, p ++ app) ∧ app.Perm (taken ++ used) ∧
      (gt2 = [] ∨ ins2 = []) ∧ (∀ g ∈ taken, ∃ i ∈ ins, g.time < i.time) ∧
      taken.Sublist app ∧ used.Sublist app := by
  induction fuel generalizing gt ins p with
  | zero =>
    have h1 : gt = [] := List.length_eq_zero.1 (by omega)
    have h2 : ins = [] := List.length_eq_zero.1 (by omega)
    subst h1 h2
    exact ⟨[], [], [], [], [], rfl, rfl, by simp [mergeLoop], by simp, Or.inl rfl,
      by simp, by simp, by simp⟩
  | succ fuel ih =>
    cases gt with
    | nil =>
      exact ⟨[], [], [], ins, [], rfl, rfl, by simp [mergeLoop_nil_left], by simp, Or.inl rfl,
        by simp, by simp, by simp⟩
    | cons g gs =>
      cases ins with
      | nil =>
        exact ⟨[], g :: gs, [], [], [], rfl, rfl, by simp [mergeLoop_nil_right], by simp,
          Or.inr rfl, by simp, by simp, by simp⟩
      | cons i is =>
        by_cases h : g.time < i.time
        · obtain ⟨taken, gt2, used, ins2, app, e1, e2, e3, e4, e5, e6, e7, e8⟩ :=
            ih gs (i :: is) (p ++ [g]) (by simp at hf ⊢; omega)
          refine ⟨g :: taken, gt2, used, ins2, g :: app, by simp [e1], e2, ?_, ?_, e5, ?_, ?_, ?_⟩
          · rw [mergeLoop_cons_lt _ _ _ _ _ _ h, e3]; simp
          · simpa using e4
          · intro x hx
            rcases List.mem_cons.1 hx with rfl | hx
            · exact ⟨i, by simp, h⟩
            · exact e6 x hx
          · exact e7.cons₂ g
          · exact e8.cons g
        · obtain ⟨taken, gt2, used, ins2, app, e1, e2, e3, e4, e5, e6, e7, e8⟩ :=
            ih (g :: gs) is (p ++ [i]) (by simp at hf ⊢; omega)
          refine ⟨taken, gt2, i :: used, ins2, i :: app, e1, by simp [e2], ?_, ?_, e5, ?_, ?_, ?_⟩
          · rw [mergeLoop_cons_ge _ _ _ _ _ _ h, e3]; simp
          · rw [List.perm_iff_count]
            intro x
            have := List.perm_iff_count.1 e4 x
            simp only [List.count_cons, List.count_append] at this ⊢
            omega
          · intro x hx
            obtain ⟨y, hy, hlt⟩ := e6 x hx
            exact ⟨y, List.mem_cons_of_mem _ hy, hlt⟩
          · exact e7.cons i
          · exact e8.cons₂ i

theorem drainLoop_eq (ct : Int) (gt p : List Node) :
    drainLoop ct gt p =
      (gt.dropWhile (fun g => decide (g.time ≤ ct)),
       p ++ gt.takeWhile (fun g => decide (g.time ≤ ct))) := by
  induction gt generalizing p with
  | nil => simp [drainLoop]
  | cons g gs ih =>
    by_cases h : g.time > ct
    · have h2 : ¬ g.time ≤ ct := by omega
      simp [drainLoop, h, h2]
    · have h2 : g.time ≤ ct := by omega
      simp [drainLoop, h, h2, ih]

theorem dropWhile_all_later {ct : Int} {l : List Node} (h : NonDecreasing l) :
    ∀ g ∈ l.dropWhile (fun g => decide (g.time ≤ ct)), ct < g.time := by
  induction l with
  | nil => simp
  | cons a l ih =>
    have hp := List.pairwise_cons.1 h
    by_cases ha : a.time ≤ ct
    · simpa [ha] using ih hp.2
    · intro g hg
      have hg2 : g ∈ a :: l := by simpa [ha] using hg
      rcases List.mem_cons.1 hg2 with rfl | hgl
      · omega
      · have := hp.1 g hgl
        omega

theorem filter_eq_takeWhile (ct : Int) {l : List Node} (h : NonDecreasing l) :
    l.filter (fun g => decide (g.time ≤ ct)) = l.takeWhile (fun g => decide (g.time ≤ ct)) := by
  induction l with
  | nil => simp
  | cons a l ih =>
    have hp := List.pairwise_cons.1 h
    by_cases ha : a.time ≤ ct
    · simp [ha, ih hp.2]
    · simp only [ha, decide_False, Bool.false_eq_true, not_false_eq_true,
        List.filter_cons_of_neg, List.takeWhile_cons_of_neg]
      rw [List.filter_eq_nil_iff]
      intro g hg
      have := hp.1 g hg
      simp only [decide_eq_true_eq]
      omega

/-- The merge of a tick in closed form: the nodes appended to `pending_nodes` and the
split of `ground_truth`, before any assumption on the inputs. -/
theorem mergeStep_spec (s : Streams) (batch : List Node) (ct : Int) :
    ∃ taken gt2 used ins2 app, s.ground_truth = taken ++ gt2 ∧ batch = used ++ ins2 ∧
      app.Perm (taken ++ used) ∧ (gt2 = [] ∨ ins2 = []) ∧
      (∀ g ∈ taken, ∃ i ∈ batch, g.time < i.time) ∧ taken.Sublist app ∧ used.Sublist app ∧
      (mergeStep s batch ct).pending_nodes =
        s.pending_nodes ++ (app ++ ins2 ++ gt2.takeWhile (fun g => decide (g.time ≤ ct))) ∧
      (mergeStep s batch ct).ground_truth = gt2.dropWhile (fun g => decide (g.time ≤ ct)) := by
  obtain ⟨taken, gt2, used, ins2, app, e1, e2, e3, e4, e5, e6, e7, e8⟩ :=
    mergeLoop_spec (s.ground_truth.length + batch.length) s.ground_truth batch s.pending_nodes
      (le_refl _)
  refine ⟨taken, gt2, used, ins2, app, e1, e2, e4, e5, e6, e7, e8, ?_, ?_⟩
  · simp [mergeStep, e3, drainLoop_eq, List.append_assoc]
  · simp [mergeStep, e3, drainLoop_eq]

/-- The merge of a tick on a batch that is not later than `current_time`: what is
appended is the batch interleaved with the `takeWhile` part of the reference queue, and
the queue is left with its `dropWhile` part. -/
theorem mergeStep_appended (s : Streams) (batch : List Node) (ct : Int)
    (hb : ∀ n ∈ batch, n.time ≤ ct) :
    ∃ appended,
      (mergeStep s batch ct).pending_nodes = s.pending_nodes ++ appended ∧
      appended.Perm (batch ++ s.ground_truth.takeWhile (fun g => decide (g.time ≤ ct))) ∧
      batch.Sublist appended ∧
      (s.ground_truth.takeWhile (fun g => decide (g.time ≤ ct))).Sublist appended ∧
      (mergeStep s batch ct).ground_truth =
        s.ground_truth.dropWhile (fun g => decide (g.time ≤ ct)) := by
  obtain ⟨taken, gt2, used, ins2, app, e1, e2, e4, _, e6, e7, e8, e9, e10⟩ :=
    mergeStep_spec s batch ct
  have hP : ∀ g ∈ taken, (fun g : Node => decide (g.time ≤ ct)) g = true := by
    intro g hg
    obtain ⟨i, hi, hlt⟩ := e6 g hg
    have := hb i hi
    simp only [decide_eq_true_eq]
    omega
  have htw : s.ground_truth.takeWhile (fun g => decide (g.time ≤ ct)) =
      taken ++ gt2.takeWhile (fun g => decide (g.time ≤ ct)) := by
    rw [e1, List.takeWhile_append_of_pos hP]
  have hdw : s.ground_truth.dropWhile (fun g => decide (g.time ≤ ct)) =
      gt2.dropWhile (fun g => decide (g.time ≤ ct)) := by
    rw [e1, List.dropWhile_append_of_pos hP]
  refine ⟨app ++ ins2 ++ gt2.takeWhile (fun g => decide (g.time ≤ ct)), e9, ?_, ?_, ?_, ?_⟩
  · rw [htw, e2, List.perm_iff_count]
    intro x
    have := List.perm_iff_count.1 e4 x
    simp only [List.count_append] at this ⊢
    omega
  · rw [e2]
    exact List.sublist_append_of_sublist_left (e8.append (List.Sublist.refl ins2))
  · rw [htw]
    exact (e7.trans (List.sublist_append_left app ins2)).append (List.Sublist.refl _)
  · rw [e10, hdw]

theorem mem_appended_le {ct : Int} {batch gt appended : List Node}
    (hb : ∀ n ∈ batch, n.time ≤ ct)
    (hperm : appended.Perm (batch ++ gt.takeWhile (fun g => decide (g.time ≤ ct)))) :
    ∀ n ∈ appended, n.time ≤ ct := by
  intro n hn
  rcases List.mem_append.1 ((hperm.mem_iff).1 hn) with h | h
  · exact hb n h
  · simpa using List.mem_takeWhile_imp h

/-- C4: for a reference queue sorted ascending by time and an observed batch whose
events all have `time ≤ current_time`, the merge of a tick appends to the pending
sequence a list `appended` that is a permutation of the batch plus the reference events
with `time ≤ current_time`, which are the longest such prefix of the queue; batch and
prefix each keep their order in `appended`; the reference queue is left with the rest of
it, in order, all with `time > current_time`; so nothing appended is later than
`current_time`, and `appended` plus the remaining queue is a permutation of the batch
plus the original queue. -/
theorem mergeStep_admits (s : Streams) (batch : List Node) (current_time : Int)
    (hs : NonDecreasing s.ground_truth) (hb : ∀ n ∈ batch, n.time ≤ current_time) :
    ∃ appended,
      (mergeStep s batch current_time).pending_nodes = s.pending_nodes ++ appended ∧
      appended.Perm
        (batch ++ s.ground_truth.filter (fun g => decide (g.time ≤ current_time))) ∧
      batch.Sublist appended ∧
      (s.ground_truth.takeWhile (fun g => decide (g.time ≤ current_time))).Sublist appended ∧
      s.ground_truth.filter (fun g => decide (g.time ≤ current_time)) =
        s.ground_truth.takeWhile (fun g => decide (g.time ≤ current_time)) ∧
      s.ground_truth =
        s.ground_truth.takeWhile (fun g => decide (g.time ≤ current_time)) ++
          (mergeStep s batch current_time).ground_truth ∧
      (mergeStep s batch current_time).ground_truth =
        s.ground_truth.dropWhile (fun g => decide (g.time ≤ current_time)) ∧
      (∀ g ∈ (mergeStep s batch current_time).ground_truth, current_time < g.time) ∧
      (∀ n ∈ appended, n.time ≤ current_time) ∧
      (appended ++ (mergeStep s batch current_time).ground_truth).Perm
        (batch ++ s.ground_truth) := by
  obtain ⟨appended, a1, a2, a3, a4, a5⟩ := mergeStep_appended s batch current_time hb
  have hfil := filter_eq_takeWhile current_time hs
  refine ⟨appended, a1, ?_, a3, a4, hfil, ?_, a5, ?_, mem_appended_le hb a2, ?_⟩
  · rw [hfil]; exact a2
  · rw [a5, List.takeWhile_append_dropWhile]
  · rw [a5]
    exact dropWhile_all_later hs
  · rw [a5]
    have h3 := a2.append_right
      (s.ground_truth.dropWhile (fun g => decide (g.time ≤ current_time)))
    rw [List.append_assoc batch, List.takeWhile_append_dropWhile] at h3
    exact h3

theorem mergeStep_admits_witness :
    ∃ appended,
      (mergeStep ⟨[⟨0, 0, 60, 1, none⟩, ⟨0, 50, 62, 1, none⟩, ⟨0, 200, 64, 1, none⟩,
          ⟨0, 300, 65, 1, none⟩], []⟩
        [⟨1, 10, 60, 1, none⟩, ⟨1, 10, 61, 1, none⟩] 200).pending_nodes = [] ++ appended ∧
      appended.Perm ([⟨1, 10, 60, 1, none⟩, ⟨1, 10, 61, 1, none⟩] ++
        [⟨0, 0, 60, 1, none⟩, ⟨0, 50, 62, 1, none⟩, ⟨0, 200, 64, 1, none⟩]) ∧
      (mergeStep ⟨[⟨0, 0, 60, 1, none⟩, ⟨0, 50, 62, 1, none⟩, ⟨0, 200, 64, 1, none⟩,
          ⟨0, 300, 65, 1, none⟩], []⟩
        [⟨1, 10, 60, 1, none⟩, ⟨1, 10, 61, 1, none⟩] 200).ground_truth =
        [⟨0, 300, 65, 1, none⟩] := by
  obtain ⟨appended, h1, h2, _, _, _, _, h7, _⟩ :=
    mergeStep_admits ⟨[⟨0, 0, 60, 1, none⟩, ⟨0, 50, 62, 1, none⟩, ⟨0, 200, 64, 1, none⟩,
        ⟨0, 300, 65, 1, none⟩], []⟩
      [⟨1, 10, 60, 1, none⟩, ⟨1, 10, 61, 1, none⟩] 200 (by decide) (by decide)
  exact ⟨appended, h1, h2, h7⟩

/-- While the head `g` of `ground_truth` stays in place, the first merge loop
appends observed events only: it ends with `g` still at the head and every observed
event appended, or it appends a prefix `mid` of the observed events and then `g`. -/
theorem mergeLoop_head (g : Node) (gs : List Node) (is : List Node) :
    ∀ (fuel : Nat) (q : List Node), (g :: gs).length + is.length ≤ fuel →
      mergeLoop fuel (g :: gs) is q = (g :: gs, [], q ++ is) ∨
      ∃ mid tl gt2 ins2 app, is = mid ++ tl ∧
        mergeLoop fuel (g :: gs) is q = (gt2, ins2, q ++ (mid ++ g :: app)) := by
  induction is with
  | nil =>
    intro fuel q _
    left
    simp [mergeLoop_nil_right]
  | cons i is ih =>
    intro fuel q hf
    cases fuel with
    | zero => simp at hf
    | succ fuel =>
      by_cases h : g.time < i.time
      · right
        obtain ⟨_, gt2, _, ins2, app, _, _, e3, _⟩ :=
          mergeLoop_spec fuel gs (i :: is) (q ++ [g]) (by simp at hf ⊢; omega)
        refine ⟨[], i :: is, gt2, ins2, app, rfl, ?_⟩
        rw [mergeLoop_cons_lt _ _ _ _ _ _ h, e3]
        simp
      · rw [mergeLoop_cons_ge _ _ _ _ _ _ h]
        rcases ih fuel (q ++ [i]) (by simp at hf ⊢; omega) with e | ⟨mid, tl, gt2, ins2, app, e1, e2⟩
        · left
          rw [e]; simp
        · right
          refine ⟨i :: mid, tl, gt2, ins2, app, by simp [e1], ?_⟩
          rw [e2]; simp

/-- C6 as stated fails: merging reference [REF t=10] with observed batch [OBS t=10] at
`current_time = 10` into an empty pending sequence appends the observed event first. -/
theorem merge_tie_counterexample :
    (mergeStep ⟨[⟨0, 10, 60, 1, none⟩], []⟩ [⟨1, 10, 60, 1, none⟩] 10).pending_nodes =
      [⟨1, 10, 60, 1, none⟩, ⟨0, 10, 60, 1, none⟩] ∧
    (mergeStep ⟨[⟨0, 10, 60, 1, none⟩], []⟩ [⟨1, 10, 60, 1, none⟩] 10).pending_nodes ≠
      [⟨0, 10, 60, 1, none⟩, ⟨1, 10, 60, 1, none⟩] := by
  decide

/-- C6, amended: when the head `g` of the reference queue and the head `i` of the
observed batch have equal time (and that time is at most `current_time`), the merge
appends the observed event before the reference event: what it appends is `i`, then
some further events `mid` from the front of the batch, then `g`, then the rest.
Concretely, merging reference [REF t=10] with observed batch [OBS t=10] at
`current_time = 10` into an empty pending sequence yields [OBS t=10, REF t=10]. -/
theorem merge_tie_observed_first :
    (∀ (g i : Node) (gs is pending_nodes : List Node) (current_time : Int),
      g.time = i.time → i.time ≤ current_time →
      ∃ mid tl rest, is = mid ++ tl ∧
        (mergeStep ⟨g :: gs, pending_nodes⟩ (i :: is) current_time).pending_nodes =
          pending_nodes ++ i :: (mid ++ g :: rest)) ∧
    (mergeStep ⟨[⟨0, 10, 60, 1, none⟩], []⟩ [⟨1, 10, 60, 1, none⟩] 10).pending_nodes =
      [⟨1, 10, 60, 1, none⟩, ⟨0, 10, 60, 1, none⟩] := by
  refine ⟨?_, by decide⟩
  intro g i gs is p ct hgi hict
  have hstep : mergeLoop ((g :: gs).length + (i :: is).length) (g :: gs) (i :: is) p =
      mergeLoop ((g :: gs).length + is.length) (g :: gs) is (p ++ [i]) := by
    have : (g :: gs).length + (i :: is).length = ((g :: gs).length + is.length) + 1 := by
      simp; omega
    rw [this, mergeLoop_cons_ge _ _ _ _ _ _ (by omega)]
  rcases mergeLoop_head g gs is ((g :: gs).length + is.length) (p ++ [i]) (le_refl _) with
    e | ⟨mid, tl, gt2, ins2, app, e1, e2⟩
  · refine ⟨is, [], gs.takeWhile (fun x => decide (x.time ≤ ct)), by simp, ?_⟩
    have hg : g.time ≤ ct := by omega
    simp only [mergeStep]
    rw [hstep, e]
    simp [drainLoop_eq, hg]
  · refine ⟨mid, tl, app ++ ins2 ++ gt2.takeWhile (fun x => decide (x.time ≤ ct)), e1, ?_⟩
    simp only [mergeStep]
    rw [hstep, e2]
    simp [drainLoop_eq]

theorem merge_tie_observed_first_witness :
    ∃ mid tl rest, ([] : List Node) = mid ++ tl ∧
      (mergeStep ⟨[⟨0, 10, 60, 1, none⟩], []⟩ [⟨1, 10, 60, 1, none⟩] 10).pending_nodes =
        [] ++ (⟨1, 10, 60, 1, none⟩ : Node) :: (mid ++ (⟨0, 10, 60, 1, none⟩ : Node) :: rest) :=
  merge_tie_observed_first.1 ⟨0, 10, 60, 1, none⟩ ⟨1, 10, 60, 1, none⟩ [] [] [] 10
    (by decide) (by decide)

/-! ## Time order of the pending sequence -/

theorem matchUpTo_map_time (ct : Int) (s : List Node) (k : Nat) :
    (matchUpTo ct s k).map (fun n => n.time) = s.map (fun n => n.time) := by
  apply List.ext_getElem?
  intro m
  have h := congrArg (Option.map (fun n : Node => n.time)) (matchUpTo_unlinked ct s k m)
  simp only [Option.map_map] at h
  simpa [List.getElem?_map, Function.comp_def, Node.unlinked] using h

theorem nonDecreasing_iff_map (l : List Node) :
    NonDecreasing l ↔ (l.map (fun n => n.time)).Pairwise (fun a b => a ≤ b) := by
  unfold NonDecreasing
  rw [List.pairwise_map]

theorem matchPass_nonDecreasing {ct : Int} {l : List Node} (h : NonDecreasing l) :
    NonDecreasing (matchPass ct l) := by
  rw [nonDecreasing_iff_map] at h ⊢
  unfold matchPass
  rw [matchUpTo_map_time]
  exact h

theorem matchPass_time_bound {ct : Int} {l : List Node} {b : Int}
    (h : ∀ n ∈ l, n.time ≤ b) : ∀ n ∈ matchPass ct l, n.time ≤ b := by
  intro n hn
  obtain ⟨m, hm⟩ := List.mem_iff_getElem?.1 hn
  obtain ⟨a, ha, _, e, _⟩ := matchUpTo_fields hm
  rw [← e]
  exact h a (List.getElem?_mem ha)

/-- The first merge loop keeps `pending_nodes` non-decreasing and not later than what
is left of the two input lists. -/
theorem mergeLoop_sorted (fuel : Nat) (gt ins p : List Node)
    (hp : NonDecreasing p) (hg : NonDecreasing gt) (hi : NonDecreasing ins)
    (hpg : ∀ x ∈ p, ∀ y ∈ gt, x.time ≤ y.time) (hpi : ∀ x ∈ p, ∀ y ∈ ins, x.time ≤ y.time) :
    NonDecreasing (mergeLoop fuel gt ins p).2.2 ∧
    NonDecreasing (mergeLoop fuel gt ins p).1 ∧
    NonDecreasing (mergeLoop fuel gt ins p).2.1 ∧
    (∀ x ∈ (mergeLoop fuel gt ins p).2.2, ∀ y ∈ (mergeLoop fuel gt ins p).1, x.time ≤ y.time) ∧
    (∀ x ∈ (mergeLoop fuel gt ins p).2.2, ∀ y ∈ (mergeLoop fuel gt ins p).2.1,
      x.time ≤ y.time) := by
  induction fuel generalizing gt ins p with
  | zero =>
    have e : mergeLoop 0 gt ins p = (gt, ins, p) := by simp [mergeLoop]
    rw [e]
    exact ⟨hp, hg, hi, hpg, hpi⟩
  | succ fuel ih =>
    cases gt with
    | nil =>
      rw [mergeLoop_nil_left]
      exact ⟨hp, hg, hi, hpg, hpi⟩
    | cons g gs =>
      cases ins with
      | nil =>
        rw [mergeLoop_nil_right]
        exact ⟨hp, hg, hi, hpg, hpi⟩
      | cons i is =>
        have hg2 := List.pairwise_cons.1 hg
        have hi2 := List.pairwise_cons.1 hi
        by_cases h : g.time < i.time
        · rw [mergeLoop_cons_lt _ _ _ _ _ _ h]
          apply ih
          · unfold NonDecreasing
            rw [List.pairwise_append]
            refine ⟨hp, by simp, ?_⟩
            intro x hx y hy
            rw [List.mem_singleton] at hy; subst hy
            exact hpg x hx _ (by simp)
          · exact hg2.2
          · exact hi
          · intro x hx y hy
            rcases List.mem_append.1 hx with hx | hx
            · exact hpg x hx y (List.mem_cons_of_mem _ hy)
            · rw [List.mem_singleton] at hx; subst hx
              exact hg2.1 y hy
          · intro x hx y hy
            rcases List.mem_append.1 hx with hx | hx
            · exact hpi x hx y hy
            · rw [List.mem_singleton] at hx; subst hx
              rcases List.mem_cons.1 hy with rfl | hy
              · omega
              · have := hi2.1 y hy
                omega
        · rw [mergeLoop_cons_ge _ _ _ _ _ _ h]
          apply ih
          · unfold NonDecreasing
            rw [List.pairwise_append]
            refine ⟨hp, by simp, ?_⟩
            intro x hx y hy
            rw [List.mem_singleton] at hy; subst hy
            exact hpi x hx _ (by simp)
          · exact hg
          · exact hi2.2
          · intro x hx y hy
            rcases List.mem_append.1 hx with hx | hx
            · exact hpg x hx y hy
            · rw [List.mem_singleton] at hx; subst hx
              rcases List.mem_cons.1 hy with rfl | hy
              · omega
              · have := hg2.1 y hy
                omega
          · intro x hx y hy
            rcases List.mem_append.1 hx with hx | hx
            · exact hpi x hx y (List.mem_cons_of_mem _ hy)
            · rw [List.mem_singleton] at hx; subst hx
              exact hi2.1 y hy

/-- The merge of a tick keeps `pending_nodes` non-decreasing in time. -/
theorem mergeStep_sorted (s : Streams) (batch : List Node) (ct : Int)
    (hp : NonDecreasing s.pending_nodes) (hg : NonDecreasing s.ground_truth)
    (hb : NonDecreasing batch)
    (hpg : ∀ x ∈ s.pending_nodes, ∀ y ∈ s.ground_truth, x.time ≤ y.time)
    (hpb : ∀ x ∈ s.pending_nodes, ∀ y ∈ batch, x.time ≤ y.time) :
    NonDecreasing (mergeStep s batch ct).pending_nodes := by
  obtain ⟨taken, gt2, used, ins2, app, _, _, e3, _, e5, _⟩ :=
    mergeLoop_spec (s.ground_truth.length + batch.length) s.ground_truth batch s.pending_nodes
      (le_refl _)
  have hsort := mergeLoop_sorted (s.ground_truth.length + batch.length) s.ground_truth batch
    s.pending_nodes hp hg hb hpg hpb
  rw [e3] at hsort
  obtain ⟨h1, h2, h3, h4, h5⟩ := hsort
  simp only at h1 h2 h3 h4 h5
  have hpend : (mergeStep s batch ct).pending_nodes =
      (s.pending_nodes ++ app ++ ins2) ++ gt2.takeWhile (fun g => decide (g.time ≤ ct)) := by
    simp [mergeStep, e3, drainLoop_eq]
  rw [hpend]
  unfold NonDecreasing at h1 h2 h3 ⊢
  rw [List.pairwise_append, List.pairwise_append]
  refine ⟨⟨h1, h3, h5⟩, h2.sublist (List.takeWhile_sublist _), ?_⟩
  intro x hx y hy
  have hy2 : y ∈ gt2 := (List.takeWhile_sublist _).subset hy
  rcases List.mem_append.1 hx with hx | hx
  · exact h4 x hx y hy2
  · rcases e5 with e | e
    · subst e; simp at hy2
    · subst e; simp at hx

/-- C5: non-decreasing time order of the pending sequence is an invariant of the tick
(merge, then `match_nodes`).  If the pending sequence is non-decreasing with all times at
most `previous_time`, the reference queue is sorted with all times after `previous_time`,
`previous_time ≤ current_time`, and the observed batch is sorted with all times between
`previous_time` and `current_time`, then the pending sequence is non-decreasing after
the merge, after the matching pass and after the eviction, which keeps the survivors in
their relative order; and the assumptions hold again for the next tick, with
`current_time` as the previous time.  From an empty pending sequence, reference times
[0, 50, 200] and observed times [10, 10] at `current_time = 200` give pending times
[0, 10, 10, 50, 200]. -/
theorem tick_keeps_time_order :
    (∀ (s : Streams) (batch : List Node) (previous_time current_time : Int),
      NonDecreasing s.pending_nodes → (∀ n ∈ s.pending_nodes, n.time ≤ previous_time) →
      NonDecreasing s.ground_truth → (∀ n ∈ s.ground_truth, previous_time < n.time) →
      previous_time ≤ current_time →
      NonDecreasing batch → (∀ n ∈ batch, previous_time ≤ n.time ∧ n.time ≤ current_time) →
      NonDecreasing (mergeStep s batch current_time).pending_nodes ∧
      NonDecreasing (tick s batch current_time).2.linked ∧
      NonDecreasing (tick s batch current_time).1.pending_nodes ∧
      (tick s batch current_time).1.pending_nodes.Sublist (tick s batch current_time).2.linked ∧
      (∀ n ∈ (tick s batch current_time).1.pending_nodes, n.time ≤ current_time) ∧
      NonDecreasing (tick s batch current_time).1.ground_truth ∧
      (∀ n ∈ (tick s batch current_time).1.ground_truth, current_time < n.time)) ∧
    ((mergeStep ⟨[⟨0, 0, 60, 1, none⟩, ⟨0, 50, 62, 1, none⟩, ⟨0, 200, 64, 1, none⟩], []⟩
        [⟨1, 10, 60, 1, none⟩, ⟨1, 10, 61, 1, none⟩] 200).pending_nodes.map (fun n => n.time) =
      [0, 10, 10, 50, 200]) := by
  refine ⟨?_, by decide⟩
  intro s batch prev ct hp hpt hg hgt hle hb hbt
  have hmerge : NonDecreasing (mergeStep s batch ct).pending_nodes := by
    apply mergeStep_sorted s batch ct hp hg hb
    · intro x hx y hy
      have := hpt x hx
      have := hgt y hy
      omega
    · intro x hx y hy
      have := hpt x hx
      have := (hbt y hy).1
      omega
  obtain ⟨appended, a1, a2, _, _, a7⟩ :=
    mergeStep_appended s batch ct (fun n hn => (hbt n hn).2)
  have a9 := mem_appended_le (fun n hn => (hbt n hn).2) a2
  have hbound : ∀ n ∈ (mergeStep s batch ct).pending_nodes, n.time ≤ ct := by
    intro n hn
    rw [a1] at hn
    rcases List.mem_append.1 hn with h | h
    · have := hpt n h
      omega
    · exact a9 n h
  have hlinked : NonDecreasing (matchPass ct (mergeStep s batch ct).pending_nodes) :=
    matchPass_nonDecreasing hmerge
  refine ⟨hmerge, hlinked, ?_, ?_, ?_, ?_, ?_⟩
  · exact List.Pairwise.sublist (List.filter_sublist _) hlinked
  · exact List.filter_sublist _
  · intro n hn
    have hn2 : n ∈ matchPass ct (mergeStep s batch ct).pending_nodes :=
      ((mem_evict ct _ n).1 hn).1
    exact matchPass_time_bound hbound n hn2
  · show NonDecreasing (mergeStep s batch ct).ground_truth
    rw [a7]
    exact List.Pairwise.sublist (List.dropWhile_sublist _) hg
  · show ∀ n ∈ (mergeStep s batch ct).ground_truth, ct < n.time
    rw [a7]
    exact dropWhile_all_later hg

theorem tick_keeps_time_order_witness :
    NonDecreasing (mergeStep
      ⟨[⟨0, 0, 60, 1, none⟩, ⟨0, 50, 62, 1, none⟩, ⟨0, 200, 64, 1, none⟩], []⟩
      [⟨1, 10, 60, 1, none⟩, ⟨1, 10, 61, 1, none⟩] 200).pending_nodes :=
  (tick_keeps_time_order.1
    ⟨[⟨0, 0, 60, 1, none⟩, ⟨0, 50, 62, 1, none⟩, ⟨0, 200, 64, 1, none⟩], []⟩
    [⟨1, 10, 60, 1, none⟩, ⟨1, 10, 61, 1, none⟩] (-1) 200
    (by decide) (by decide) (by decide) (by decide) (by decide) (by decide) (by decide)).1

/-! ## Window close and classification -/

theorem mem_callbacks_iff (nodes : List Node) (ct : Int) (c : Bool × Nat) :
    c ∈ (match_nodes nodes ct).callbacks ↔
      ∃ n, (match_nodes nodes ct).linked[c.2]? = some n ∧
        ((c.1 = true ∧ n.matched ≠ none ∧ n.type = NODE_TYPE_GROUND_TRUTH) ∨
         (c.1 = false ∧ n.matched = none ∧ n.time < ct - time_epsilon)) := by
  show c ∈ callbacksFrom ct (matchPass ct nodes) 0 ↔ _
  rw [mem_callbacksFrom]
  constructor
  · rintro ⟨m, n, hn, hc, hor⟩
    have : c.2 = m := by omega
    subst this
    exact ⟨n, hn, hor⟩
  · rintro ⟨n, hn, hor⟩
    exact ⟨c.2, n, hn, by omega, hor⟩

/-- C3 as stated fails: with pending [REF t=500 v=64, OBS t=540 v=64] the call with
`current_time = 600` (where `600 - 500 ≥ time_epsilon`) issues no callback and removes
nothing. -/
theorem window_close_counterexample :
    (600 : Int) - 500 ≥ time_epsilon ∧
    (match_nodes [⟨0, 500, 64, 1, none⟩, ⟨1, 540, 64, 1, none⟩] 600).callbacks = [] ∧
    (match_nodes [⟨0, 500, 64, 1, none⟩, ⟨1, 540, 64, 1, none⟩] 600).pending =
      [⟨0, 500, 64, 1, none⟩, ⟨1, 540, 64, 1, none⟩] := by
  decide

/-- C3, amended: a reference event that is unmatched when the matching pass visits it
and has a qualifying partner in the pending sequence (a first candidate) is classified
MATCHED by exactly the calls with `current_time - event.time > time_epsilon`, so at the
first tick where that holds: such a call links it to its first candidate, issues
`callback(true, .)` for it and removes both events; a call with
`current_time - event.time ≤ time_epsilon` issues no callback for it and leaves it in the
pending sequence.  Concretely, with pending [REF t=500 v=64, OBS t=540 v=64],
`match_nodes` with `current_time = 601` issues the MATCHED callback for the reference
event (paired with the observed event) and removes both events, and with
`current_time = 600` it issues no callback and removes nothing. -/
theorem matched_at_window_close :
    (∀ (nodes : List Node) (current_time : Int) (i : Nat) (a : Node),
      (matchUpTo current_time nodes i)[i]? = some a → a.matched = none →
      a.type = NODE_TYPE_GROUND_TRUTH →
      (∃ j, FirstCandidate (matchUpTo current_time nodes i) i j) →
      (((true, i) ∈ (match_nodes nodes current_time).callbacks ↔
        time_epsilon < current_time - a.time) ∧
       (time_epsilon < current_time - a.time →
        ∀ j, FirstCandidate (matchUpTo current_time nodes i) i j →
          linkAt (match_nodes nodes current_time).linked i = some j ∧
          linkAt (match_nodes nodes current_time).linked j = some i ∧
          (∀ b, (match_nodes nodes current_time).linked[i]? = some b →
            evicted current_time b = true) ∧
          (∀ b, (match_nodes nodes current_time).linked[j]? = some b →
            evicted current_time b = true)) ∧
       (¬ time_epsilon < current_time - a.time →
        (true, i) ∉ (match_nodes nodes current_time).callbacks ∧
        (false, i) ∉ (match_nodes nodes current_time).callbacks ∧
        (match_nodes nodes current_time).linked[i]? = some a ∧
        a ∈ (match_nodes nodes current_time).pending))) ∧
    ((match_nodes [⟨0, 500, 64, 1, none⟩, ⟨1, 540, 64, 1, none⟩] 601).callbacks = [(true, 0)] ∧
     linkAt (match_nodes [⟨0, 500, 64, 1, none⟩, ⟨1, 540, 64, 1, none⟩] 601).linked 0 = some 1 ∧
     (match_nodes [⟨0, 500, 64, 1, none⟩, ⟨1, 540, 64, 1, none⟩] 601).pending = [] ∧
     (match_nodes [⟨0, 500, 64, 1, none⟩, ⟨1, 540, 64, 1, none⟩] 600).callbacks = [] ∧
     (match_nodes [⟨0, 500, 64, 1, none⟩, ⟨1, 540, 64, 1, none⟩] 600).pending =
       [⟨0, 500, 64, 1, none⟩, ⟨1, 540, 64, 1, none⟩]) := by
  refine ⟨?_, by decide⟩
  intro nodes ct i a ha hm hty hex
  have hi : i < nodes.length := by
    have := (List.getElem?_eq_some.1 ha).1
    rwa [matchUpTo_length] at this
  -- the call with an open window
  have hopen : ¬ time_epsilon < ct - a.time →
      (match_nodes nodes ct).linked[i]? = some a := by
    intro hw
    have hno : ∀ j, ¬ StepLink ct (matchUpTo ct nodes i) i j := by
      rintro j ⟨a2, _, ha2, _, ht, _⟩
      rw [ha] at ha2; cases ha2
      omega
    have := matchUpTo_same_of_no_StepLink hno (Nat.le_of_lt hi)
    show (matchUpTo ct nodes nodes.length)[i]? = some a
    rw [this, ha]
  -- the call with a closed window
  have hclosed : time_epsilon < ct - a.time →
      ∀ j, FirstCandidate (matchUpTo ct nodes i) i j →
        linkAt (match_nodes nodes ct).linked i = some j ∧
        linkAt (match_nodes nodes ct).linked j = some i := by
    intro hw j hj
    have hlt : a.time < ct - time_epsilon := by omega
    have hs := (StepLink_iff_FirstCandidate ha hm hlt j).2 hj
    exact matchUpTo_link_of_StepLink hs hi
  have hev : ∀ (k q : Nat), linkAt (match_nodes nodes ct).linked k = some q →
      ∀ b, (match_nodes nodes ct).linked[k]? = some b → evicted ct b = true := by
    intro k q hl b hb
    obtain ⟨b2, hb2, hbm⟩ := (linkAt_eq_some_iff _ _ _).1 hl
    rw [hb] at hb2; cases hb2
    simp [evicted, hbm]
  refine ⟨⟨?_, ?_⟩, ?_, ?_⟩
  · intro hcb
    by_contra hw
    obtain ⟨n, hn, hor⟩ := (mem_callbacks_iff nodes ct (true, i)).1 hcb
    rw [hopen hw] at hn; cases hn
    rcases hor with ⟨_, h2, _⟩ | ⟨h1, _⟩
    · exact h2 hm
    · cases h1
  · intro hw
    obtain ⟨j, hj⟩ := hex
    obtain ⟨b, hb, hbm⟩ := (linkAt_eq_some_iff _ _ _).1 (hclosed hw j hj).1
    obtain ⟨x, hx, x1, _⟩ := matchUpTo_fields (show (matchUpTo ct nodes nodes.length)[i]? = some b
      from hb)
    obtain ⟨x2, hx2, y1, _⟩ := matchUpTo_fields ha
    rw [hx] at hx2; cases hx2
    refine (mem_callbacks_iff nodes ct (true, i)).2 ⟨b, hb, Or.inl ⟨rfl, ?_, ?_⟩⟩
    · rw [hbm]; simp
    · rw [← x1, y1]; exact hty
  · intro hw j hj
    have h := hclosed hw j hj
    exact ⟨h.1, h.2, hev i j h.1, hev j i h.2⟩
  · intro hw
    have hfin := hopen hw
    refine ⟨?_, ?_, hfin, ?_⟩
    · intro hcb
      obtain ⟨n, hn, hor⟩ := (mem_callbacks_iff nodes ct (true, i)).1 hcb
      rw [hfin] at hn; cases hn
      rcases hor with ⟨_, h2, _⟩ | ⟨h1, _⟩
      · exact h2 hm
      · cases h1
    · intro hcb
      obtain ⟨n, hn, hor⟩ := (mem_callbacks_iff nodes ct (false, i)).1 hcb
      rw [hfin] at hn; cases hn
      rcases hor with ⟨h1, _⟩ | ⟨_, _, h3⟩
      · cases h1
      · omega
    · show a ∈ evict ct (matchPass ct nodes)
      rw [mem_evict, evicted_eq_false_iff]
      exact ⟨List.getElem?_mem hfin, by omega, hm⟩

theorem matched_at_window_close_witness :
    ((true, 0) ∈ (match_nodes [⟨0, 500, 64, 1, none⟩, ⟨1, 540, 64, 1, none⟩] 601).callbacks ↔
      time_epsilon < 601 - (⟨0, 500, 64, 1, none⟩ : Node).time) :=
  (matched_at_window_close.1 [⟨0, 500, 64, 1, none⟩, ⟨1, 540, 64, 1, none⟩] 601 0
    ⟨0, 500, 64, 1, none⟩ (by decide) rfl rfl
    ⟨1, by decide, ⟨0, 500, 64, 1, none⟩, ⟨1, 540, 64, 1, none⟩, by decide, by decide,
      by decide, fun m d h1 h2 hd => by
        have hm1 : m = 1 := by omega
        subst hm1
        have hd2 : d = ⟨1, 540, 64, 1, none⟩ := by
          have : some (⟨1, 540, 64, 1, none⟩ : Node) = some d := hd
          exact (Option.some.inj this).symm
        subst hd2
        decide,
      fun m d h1 h2 _ => by omega⟩).1

/-! ## Classification and eviction -/

theorem callbacksFrom_pairwise (ct : Int) (l : List Node) (b : Nat) :
    (callbacksFrom ct l b).Pairwise (fun c d => c.2 < d.2) := by
  induction l generalizing b with
  | nil => simp [callbacksFrom]
  | cons a l ih =>
    rw [callbacksFrom, List.pairwise_append]
    refine ⟨?_, ih (b + 1), ?_⟩
    · unfold nodeCallbacks
      by_cases hm : a.matched = none <;> by_cases ht : a.time < ct - time_epsilon <;>
        by_cases hy : a.type = NODE_TYPE_GROUND_TRUTH <;> simp [hm, ht, hy]
    · intro x hx y hy
      obtain ⟨m, _, _, hm, _⟩ := (mem_callbacksFrom ct l (b + 1) y).1 hy
      have hx2 : x.2 = b := by
        unfold nodeCallbacks at hx
        rcases List.mem_append.1 hx with h | h
        · split at h
          · simp only [List.mem_singleton] at h; rw [h]
          · simp at h
        · split at h
          · simp only [List.mem_singleton] at h; rw [h]
          · simp at h
      omega

theorem callbacks_nodup (nodes : List Node) (ct : Int) :
    (match_nodes nodes ct).callbacks.Nodup := by
  show (callbacksFrom ct (matchPass ct nodes) 0).Nodup
  refine (callbacksFrom_pairwise ct _ 0).imp ?_
  intro c d h e
  rw [e] at h
  exact lt_irrefl _ h

theorem countP_eq_one_of_unique {α : Type} (p : α → Bool) (l : List α) (c : α)
    (hn : l.Nodup) (hc : c ∈ l) (hp : p c = true) (hu : ∀ d ∈ l, p d = true → d = c) :
    l.countP p = 1 := by
  induction l with
  | nil => simp at hc
  | cons a l ih =>
    have hn2 := List.nodup_cons.1 hn
    rcases List.mem_cons.1 hc with rfl | hcl
    · rw [List.countP_cons_of_pos _ _ hp]
      have : l.countP p = 0 := by
        rw [List.countP_eq_zero]
        intro d hd hpd
        have := hu d (List.mem_cons_of_mem _ hd) (by simpa using hpd)
        subst this
        exact hn2.1 hd
      omega
    · have hpa : ¬ p a = true := by
        intro hpa
        have := hu a (List.mem_cons_self _ _) hpa
        subst this
        exact hn2.1 hcl
      rw [List.countP_cons_of_neg _ _ hpa]
      exact ih hn2.2 hcl (fun d hd hpd => hu d (List.mem_cons_of_mem _ hd) hpd)

/-- After the pass on a list that was unmatched on entry, a linked node and its partner
point at each other, sit at different positions and have different types. -/
theorem linked_partner {nodes : List Node} {ct : Int} (hu : ∀ n ∈ nodes, n.matched = none)
    {i k : Nat} (h : linkAt (matchPass ct nodes) i = some k) :
    i ≠ k ∧ ∃ b c, (matchPass ct nodes)[i]? = some b ∧ (matchPass ct nodes)[k]? = some c ∧
      b.matched = some k ∧ c.matched = some i ∧ b.type ≠ c.type := by
  have hki := matchUpTo_mutual nodes.length (mutual_of_unmatched hu) i k h
  obtain ⟨b, hb, hbm⟩ := (linkAt_eq_some_iff _ _ _).1 h
  obtain ⟨c, hc, hcm⟩ := (linkAt_eq_some_iff _ _ _).1 hki
  obtain ⟨x, y, hx, hy, _, e2, hor⟩ := matchUpTo_new_link h (linkAt_of_unmatched hu i)
  obtain ⟨x2, hx2, b1, _⟩ := matchUpTo_fields hb
  obtain ⟨y2, hy2, c1, _⟩ := matchUpTo_fields hc
  rw [hx] at hx2; cases hx2
  rw [hy] at hy2; cases hy2
  refine ⟨?_, b, c, hb, hc, hbm, hcm, by rw [← b1, ← c1]; exact e2⟩
  rcases hor with ⟨hlt, _⟩ | ⟨hlt, _⟩ <;> omega

theorem covers_iff (linked : List Node) (i : Nat) (c : Bool × Nat) :
    covers linked i c = true ↔ c.2 = i ∨ (c.1 = true ∧ linkAt linked c.2 = some i) := by
  simp [covers]

/-- One call of `match_nodes` on events of the two node types, all unmatched on entry:
how often each position of the list is covered by the callbacks of the call. -/
theorem coverage_of_call (nodes : List Node) (ct : Int)
    (hu : ∀ n ∈ nodes, n.matched = none)
    (hty : ∀ n ∈ nodes, n.type = NODE_TYPE_GROUND_TRUTH ∨ n.type = NODE_TYPE_INPUT)
    (i : Nat) (b : Node) (hb : (match_nodes nodes ct).linked[i]? = some b) :
    (evicted ct b = true →
      (match_nodes nodes ct).callbacks.countP (covers (match_nodes nodes ct).linked i) = 1) ∧
    (evicted ct b = false →
      (match_nodes nodes ct).callbacks.countP (covers (match_nodes nodes ct).linked i) = 0) ∧
    (b.matched = none → b.time < ct - time_epsilon →
      (match_nodes nodes ct).callbacks.countP (fun c => decide (c = (false, i))) = 1) ∧
    (b.matched ≠ none → b.type = NODE_TYPE_GROUND_TRUTH →
      (match_nodes nodes ct).callbacks.countP (fun c => decide (c = (true, i))) = 1) ∧
    (b.matched ≠ none → b.type = NODE_TYPE_INPUT →
      ∃ j, b.matched = some j ∧
        (match_nodes nodes ct).callbacks.countP (fun c => decide (c = (true, j))) = 1 ∧
        linkAt (match_nodes nodes ct).linked j = some i) := by
  have hnd := callbacks_nodup nodes ct
  have hone : ∀ c ∈ (match_nodes nodes ct).callbacks,
      (match_nodes nodes ct).callbacks.countP (fun d => decide (d = c)) = 1 := by
    intro c hc
    exact countP_eq_one_of_unique _ _ c hnd hc (by simp) (fun d _ hd => by simpa using hd)
  have hlb : linkAt (match_nodes nodes ct).linked i = b.matched := by
    simp [linkAt, hb]
  -- a callback whose node is the event at `i`
  have hsubj : ∀ d ∈ (match_nodes nodes ct).callbacks, d.2 = i →
      (d.1 = true ∧ b.matched ≠ none ∧ b.type = NODE_TYPE_GROUND_TRUTH) ∨
      (d.1 = false ∧ b.matched = none ∧ b.time < ct - time_epsilon) := by
    intro d hd hdi
    obtain ⟨n, hn, hor⟩ := (mem_callbacks_iff nodes ct d).1 hd
    rw [hdi, hb] at hn; cases hn
    exact hor
  -- a callback whose node has the event at `i` as its partner
  have hpart : ∀ d ∈ (match_nodes nodes ct).callbacks, d.1 = true →
      linkAt (match_nodes nodes ct).linked d.2 = some i →
      b.matched = some d.2 ∧ b.type ≠ NODE_TYPE_GROUND_TRUTH := by
    intro d hd _ hl
    obtain ⟨n, hn, hor⟩ := (mem_callbacks_iff nodes ct d).1 hd
    obtain ⟨_, x, y, hx, hy, _, hym, hxy⟩ := linked_partner hu hl
    have hx2 : (match_nodes nodes ct).linked[d.2]? = some x := hx
    have hy2 : (match_nodes nodes ct).linked[i]? = some y := hy
    rw [hn] at hx2; cases hx2
    rw [hb] at hy2; cases hy2
    refine ⟨hym, ?_⟩
    rcases hor with ⟨_, _, h3⟩ | ⟨_, h2, _⟩
    · intro hbt
      exact hxy (h3.trans hbt.symm)
    · obtain ⟨z, hz, hzm⟩ := (linkAt_eq_some_iff _ _ _).1 hl
      rw [hn] at hz; cases hz
      rw [h2] at hzm; cases hzm
  have hmemF : b.matched = none → b.time < ct - time_epsilon →
      (false, i) ∈ (match_nodes nodes ct).callbacks :=
    fun h1 h2 => (mem_callbacks_iff nodes ct (false, i)).2 ⟨b, hb, Or.inr ⟨rfl, h1, h2⟩⟩
  have hmemT : b.matched ≠ none → b.type = NODE_TYPE_GROUND_TRUTH →
      (true, i) ∈ (match_nodes nodes ct).callbacks :=
    fun h1 h2 => (mem_callbacks_iff nodes ct (true, i)).2 ⟨b, hb, Or.inl ⟨rfl, h1, h2⟩⟩
  -- the partner of an observed event
  have hobs : b.matched ≠ none → b.type = NODE_TYPE_INPUT →
      ∃ j, b.matched = some j ∧ (true, j) ∈ (match_nodes nodes ct).callbacks ∧
        linkAt (match_nodes nodes ct).linked j = some i := by
    intro h1 h2
    obtain ⟨j, hj⟩ := Option.ne_none_iff_exists'.1 h1
    have hl : linkAt (matchPass ct nodes) i = some j := hlb.trans hj
    obtain ⟨_, x, y, hx, hy, _, hym, hxy⟩ := linked_partner hu hl
    have hx2 : (match_nodes nodes ct).linked[i]? = some x := hx
    rw [hb] at hx2; cases hx2
    obtain ⟨y0, hy0, y1, _⟩ := matchUpTo_fields hy
    have hyt : y.type = NODE_TYPE_GROUND_TRUTH := by
      rcases hty y0 (List.getElem?_mem hy0) with h | h
      · rw [← y1]; exact h
      · exact absurd (h2.trans (h.symm.trans y1)) hxy
    have hyl : linkAt (match_nodes nodes ct).linked j = some i :=
      (linkAt_eq_some_iff _ _ _).2 ⟨y, hy, hym⟩
    refine ⟨j, hj, (mem_callbacks_iff nodes ct (true, j)).2 ⟨y, hy, Or.inl ⟨rfl, ?_, hyt⟩⟩, hyl⟩
    rw [hym]; simp
  have hne : NODE_TYPE_INPUT ≠ NODE_TYPE_GROUND_TRUTH := by decide
  refine ⟨?_, ?_, ?_, ?_, ?_⟩
  · intro hev
    by_cases hm : b.matched = none
    · have ht : b.time < ct - time_epsilon := by
        simpa [evicted, hm] using hev
      refine countP_eq_one_of_unique _ _ (false, i) hnd (hmemF hm ht)
        ((covers_iff _ _ _).2 (Or.inl rfl)) ?_
      intro d hd hcov
      rcases (covers_iff _ _ _).1 hcov with h | ⟨h1, h2⟩
      · rcases hsubj d hd h with ⟨_, h2, _⟩ | ⟨h1, _, _⟩
        · exact absurd hm h2
        · exact Prod.ext h1 h
      · have := (hpart d hd h1 h2).1
        rw [hm] at this; cases this
    · rcases hty' : (show b.type = NODE_TYPE_GROUND_TRUTH ∨ b.type = NODE_TYPE_INPUT from by
          obtain ⟨b0, hb0, b1, _⟩ := matchUpTo_fields
            (show (matchUpTo ct nodes nodes.length)[i]? = some b from hb)
          rw [← b1]
          exact hty b0 (List.getElem?_mem hb0)) with hg | hin
      · refine countP_eq_one_of_unique _ _ (true, i) hnd (hmemT hm hg)
          ((covers_iff _ _ _).2 (Or.inl rfl)) ?_
        intro d hd hcov
        rcases (covers_iff _ _ _).1 hcov with h | ⟨h1, h2⟩
        · rcases hsubj d hd h with ⟨h1, _, _⟩ | ⟨_, h2, _⟩
          · exact Prod.ext h1 h
          · exact absurd h2 hm
        · exact absurd hg (hpart d hd h1 h2).2
      · obtain ⟨j, hj, hjmem, hjl⟩ := hobs hm hin
        refine countP_eq_one_of_unique _ _ (true, j) hnd hjmem
          ((covers_iff _ _ _).2 (Or.inr ⟨rfl, hjl⟩)) ?_
        intro d hd hcov
        rcases (covers_iff _ _ _).1 hcov with h | ⟨h1, h2⟩
        · rcases hsubj d hd h with ⟨_, _, h3⟩ | ⟨_, h2, _⟩
          · exact absurd (hin.symm.trans h3) hne
          · exact absurd h2 hm
        · have := (hpart d hd h1 h2).1
          rw [hj] at this
          exact Prod.ext h1 (Option.some.inj this).symm
  · intro hev
    obtain ⟨ht, hm⟩ := (evicted_eq_false_iff ct b).1 hev
    rw [List.countP_eq_zero]
    intro d hd hcov
    rcases (covers_iff _ _ _).1 hcov with h | ⟨h1, h2⟩
    · rcases hsubj d hd h with ⟨_, h2, _⟩ | ⟨_, _, h3⟩
      · exact h2 hm
      · omega
    · have := (hpart d hd h1 h2).1
      rw [hm] at this; cases this
  · intro h1 h2
    exact hone _ (hmemF h1 h2)
  · intro h1 h2
    exact hone _ (hmemT h1 h2)
  · intro h1 h2
    obtain ⟨j, hj, hjmem, hjl⟩ := hobs h1 h2
    exact ⟨j, hj, hone _ hjmem, hjl⟩

/-! ## Classification over a sequence of ticks -/

theorem keepIds_sublist (ct : Int) (ids : List Nat) (nodes : List Node) :
    (keepIds ct ids nodes).Sublist ids := by
  induction ids generalizing nodes with
  | nil => cases nodes <;> simp [keepIds]
  | cons x ids ih =>
    cases nodes with
    | nil => simp [keepIds]
    | cons n nodes =>
      unfold keepIds
      split
      · exact (ih nodes).cons x
      · exact (ih nodes).cons₂ x

theorem keepIds_length (ct : Int) (ids : List Nat) (nodes : List Node)
    (h : ids.length = nodes.length) :
    (keepIds ct ids nodes).length = (evict ct nodes).length := by
  induction ids generalizing nodes with
  | nil =>
    cases nodes with
    | nil => simp [keepIds, evict]
    | cons n nodes => simp at h
  | cons x ids ih =>
    cases nodes with
    | nil => simp at h
    | cons n nodes =>
      have h2 : ids.length = nodes.length := by simpa using h
      have := ih nodes h2
      unfold keepIds
      by_cases he : evicted ct n = true
      · simp only [he, if_true]
        simpa [evict, he] using this
      · simp only [he]
        simpa [evict, he] using this

theorem mem_keepIds {ct : Int} {ids : List Nat} {nodes : List Node} {x : Nat}
    (h : x ∈ keepIds ct ids nodes) :
    ∃ (k : Nat) (n : Node), ids[k]? = some x ∧ nodes[k]? = some n ∧ evicted ct n = false := by
  induction ids generalizing nodes with
  | nil => cases nodes <;> simp [keepIds] at h
  | cons y ids ih =>
    cases nodes with
    | nil => simp [keepIds] at h
    | cons n nodes =>
      unfold keepIds at h
      by_cases he : evicted ct n = true
      · simp only [he, if_true] at h
        obtain ⟨k, m, h1, h2, h3⟩ := ih h
        exact ⟨k + 1, m, by simpa using h1, by simpa using h2, h3⟩
      · simp only [he] at h
        rcases List.mem_cons.1 h with rfl | h
        · exact ⟨0, n, by simp, by simp, by simpa using he⟩
        · obtain ⟨k, m, h1, h2, h3⟩ := ih h
          exact ⟨k + 1, m, by simpa using h1, by simpa using h2, h3⟩

theorem mem_coveredBy (linked : List Node) (c : Bool × Nat) (k : Nat) :
    k ∈ coveredBy linked c ↔ covers linked k c = true := by
  rw [covers_iff]
  unfold coveredBy
  rcases c with ⟨c1, c2⟩
  cases c1 <;> cases hl : linkAt linked c2 <;> simp [hl, eq_comm]

theorem mem_coveredPositions (linked : List Node) (cs : List (Bool × Nat)) (k : Nat) :
    k ∈ coveredPositions linked cs ↔ ∃ c ∈ cs, covers linked k c = true := by
  induction cs with
  | nil => simp [coveredPositions]
  | cons c cs ih => simp [coveredPositions, ih, mem_coveredBy]

theorem countP_coveredBy (linked : List Node) (c : Bool × Nat) (k : Nat)
    (h : linkAt linked c.2 ≠ some c.2) :
    (coveredBy linked c).countP (fun x => decide (x = k)) =
      if covers linked k c = true then 1 else 0 := by
  unfold coveredBy covers
  rcases c with ⟨c1, c2⟩
  cases c1
  · by_cases e : c2 = k <;> simp [List.countP_cons, e]
  · cases hl : linkAt linked c2 with
    | none => by_cases e : c2 = k <;> simp [List.countP_cons, e]
    | some q =>
      have hq : q ≠ c2 := by
        intro e
        apply h
        simp [hl, e]
      by_cases e : c2 = k
      · subst e
        simp [List.countP_cons, hq]
      · by_cases e2 : q = k <;> simp [List.countP_cons, e, e2]

theorem countP_coveredPositions (linked : List Node) (cs : List (Bool × Nat)) (k : Nat)
    (h : ∀ c ∈ cs, linkAt linked c.2 ≠ some c.2) :
    (coveredPositions linked cs).countP (fun x => decide (x = k)) =
      cs.countP (covers linked k) := by
  induction cs with
  | nil => simp [coveredPositions]
  | cons c cs ih =>
    rw [coveredPositions, List.countP_append, List.countP_cons,
      countP_coveredBy linked c k (h c (List.mem_cons_self _ _)),
      ih (fun d hd => h d (List.mem_cons_of_mem _ hd))]
    omega

theorem nodup_of_countP_le_one (l : List Nat)
    (h : ∀ k, l.countP (fun x => decide (x = k)) ≤ 1) : l.Nodup := by
  induction l with
  | nil => simp
  | cons a l ih =>
    rw [List.nodup_cons]
    constructor
    · intro ha
      have h1 := h a
      rw [List.countP_cons_of_pos _ _ (by simp)] at h1
      have h2 : 0 < l.countP (fun x => decide (x = a)) :=
        List.countP_pos_iff.2 ⟨a, ha, by simp⟩
      omega
    · apply ih
      intro k
      have h1 := h k
      rw [List.countP_cons] at h1
      omega

/-- A position covered by a callback of a call holds an event the call removes. -/
theorem covered_evicted {nodes : List Node} {ct : Int} (hc : Clean nodes) {k : Nat}
    (hk : k ∈ coveredPositions (match_nodes nodes ct).linked (match_nodes nodes ct).callbacks) :
    ∃ b, (match_nodes nodes ct).linked[k]? = some b ∧ evicted ct b = true := by
  have hu : ∀ n ∈ nodes, n.matched = none := fun n hn => (hc n hn).1
  have hty := fun n hn => (hc n hn).2
  obtain ⟨c, hcm, hcov⟩ := (mem_coveredPositions _ _ _).1 hk
  have hin : ∃ b, (match_nodes nodes ct).linked[k]? = some b := by
    rcases (covers_iff _ _ _).1 hcov with h | ⟨_, h2⟩
    · obtain ⟨n, hn, _⟩ := (mem_callbacks_iff nodes ct c).1 hcm
      rw [h] at hn
      exact ⟨n, hn⟩
    · obtain ⟨_, _, y, _, hy, _⟩ := linked_partner hu h2
      exact ⟨y, hy⟩
  obtain ⟨b, hb⟩ := hin
  refine ⟨b, hb, ?_⟩
  cases hev : evicted ct b with
  | true => rfl
  | false =>
    have h0 := (coverage_of_call nodes ct hu hty k b hb).2.1 hev
    rw [List.countP_eq_zero] at h0
    exact absurd hcov (h0 c hcm)

theorem coveredPositions_nodup {nodes : List Node} {ct : Int} (hc : Clean nodes) :
    (coveredPositions (match_nodes nodes ct).linked (match_nodes nodes ct).callbacks).Nodup := by
  have hu : ∀ n ∈ nodes, n.matched = none := fun n hn => (hc n hn).1
  have hty := fun n hn => (hc n hn).2
  apply nodup_of_countP_le_one
  intro k
  by_cases hk : k ∈ coveredPositions (match_nodes nodes ct).linked
      (match_nodes nodes ct).callbacks
  · obtain ⟨b, hb, hev⟩ := covered_evicted hc hk
    rw [countP_coveredPositions]
    · exact le_of_eq ((coverage_of_call nodes ct hu hty k b hb).1 hev)
    · intro c _ hself
      exact (linked_partner hu hself).1 rfl
  · have : (coveredPositions (match_nodes nodes ct).linked
        (match_nodes nodes ct).callbacks).countP (fun x => decide (x = k)) = 0 := by
      rw [List.countP_eq_zero]
      intro a ha hak
      have : a = k := by simpa using hak
      subst this
      exact hk ha
    omega

theorem mem_mergeStep_pending {s : Streams} {batch : List Node} {ct : Int} {n : Node}
    (h : n ∈ (mergeStep s batch ct).pending_nodes) :
    n ∈ s.pending_nodes ∨ n ∈ s.ground_truth ∨ n ∈ batch := by
  obtain ⟨taken, gt2, used, ins2, app, e1, e2, e4, _, _, _, _, e9, _⟩ := mergeStep_spec s batch ct
  rw [e9] at h
  rw [e1, e2]
  simp only [List.mem_append] at h ⊢
  rcases h with h | (h | h) | h
  · exact Or.inl h
  · rcases List.mem_append.1 ((e4.mem_iff).1 h) with h | h
    · exact Or.inr (Or.inl (Or.inl h))
    · exact Or.inr (Or.inr (Or.inl h))
  · exact Or.inr (Or.inr (Or.inr h))
  · exact Or.inr (Or.inl (Or.inr ((List.takeWhile_sublist _).subset h)))

theorem mem_mergeStep_ground_truth {s : Streams} {batch : List Node} {ct : Int} {n : Node}
    (h : n ∈ (mergeStep s batch ct).ground_truth) : n ∈ s.ground_truth := by
  obtain ⟨taken, gt2, used, ins2, app, e1, _, _, _, _, _, _, _, e10⟩ := mergeStep_spec s batch ct
  rw [e10] at h
  rw [e1]
  exact List.mem_append_right _ ((List.dropWhile_sublist _).subset h)

theorem mergeStep_pending_length (s : Streams) (batch : List Node) (ct : Int) :
    s.pending_nodes.length ≤ (mergeStep s batch ct).pending_nodes.length := by
  obtain ⟨_, _, _, _, _, _, _, _, _, _, _, _, e9, _⟩ := mergeStep_spec s batch ct
  rw [e9, List.length_append]
  omega

theorem clean_mergeStep {s : Streams} {batch : List Node} (ct : Int)
    (hp : Clean s.pending_nodes) (hg : Clean s.ground_truth) (hb : Clean batch) :
    Clean (mergeStep s batch ct).pending_nodes ∧ Clean (mergeStep s batch ct).ground_truth := by
  constructor
  · intro n hn
    rcases mem_mergeStep_pending hn with h | h | h
    · exact hp n h
    · exact hg n h
    · exact hb n h
  · intro n hn
    exact hg n (mem_mergeStep_ground_truth hn)

theorem clean_pending_after {nodes : List Node} (ct : Int) (hc : Clean nodes) :
    Clean (match_nodes nodes ct).pending := by
  intro n hn
  have hn2 : n ∈ evict ct (matchPass ct nodes) := hn
  rw [mem_evict, evicted_eq_false_iff] at hn2
  obtain ⟨hmem, _, hm⟩ := hn2
  obtain ⟨k, hk⟩ := List.mem_iff_getElem?.1 hmem
  obtain ⟨a, ha, a1, _⟩ := matchUpTo_fields hk
  refine ⟨hm, ?_⟩
  rw [← a1]
  exact (hc a (List.getElem?_mem ha)).2

theorem getD_inj {l : List Nat} (hn : l.Nodup) {x y : Nat} (hx : x < l.length)
    (hy : y < l.length) (h : l.getD x 0 = l.getD y 0) : x = y := by
  rw [List.getD_eq_getElem?_getD, List.getD_eq_getElem?_getD,
    List.getElem?_eq_getElem hx, List.getElem?_eq_getElem hy] at h
  apply List.getElem?_inj hx hn
  rw [List.getElem?_eq_getElem hx, List.getElem?_eq_getElem hy]
  exact congrArg some h

/-- One tick on a well-tracked state: the state stays well tracked; the identities
covered by the callbacks of the tick are pairwise different, belong to events that were
pending or were appended by this tick, and none of them is pending after the tick. -/
theorem trackedTick_spec (t : Tracked) (batch : List Node) (ct : Int)
    (hw : WellTracked t) (hb : Clean batch) :
    WellTracked (trackedTick t batch ct).1 ∧
    (trackedTick t batch ct).2.Nodup ∧
    t.next ≤ (trackedTick t batch ct).1.next ∧
    (∀ x ∈ (trackedTick t batch ct).2,
      (x ∈ t.ids ∨ t.next ≤ x) ∧ x < (trackedTick t batch ct).1.next ∧
      x ∉ (trackedTick t batch ct).1.ids) ∧
    (∀ x ∈ (trackedTick t batch ct).1.ids, x ∈ t.ids ∨ t.next ≤ x) := by
  obtain ⟨w1, w2, w3, w4, w5⟩ := hw
  have hclean := clean_mergeStep ct w4 w5 hb
  have hge := mergeStep_pending_length t.streams batch ct
  -- the identities after the merge
  have hlen : (t.ids ++ List.range' t.next ((mergeStep t.streams batch ct).pending_nodes.length -
      t.streams.pending_nodes.length)).length =
      (match_nodes (mergeStep t.streams batch ct).pending_nodes ct).linked.length := by
    rw [List.length_append, List.length_range']
    show _ = (matchUpTo ct _ _).length
    rw [matchUpTo_length]
    omega
  have hmem : ∀ x ∈ t.ids ++ List.range' t.next
      ((mergeStep t.streams batch ct).pending_nodes.length - t.streams.pending_nodes.length),
      (x ∈ t.ids ∨ t.next ≤ x) ∧
      x < t.next + ((mergeStep t.streams batch ct).pending_nodes.length -
        t.streams.pending_nodes.length) := by
    intro x hx
    rcases List.mem_append.1 hx with h | h
    · have := w3 x h
      exact ⟨Or.inl h, by omega⟩
    · rw [List.mem_range'_1] at h
      exact ⟨Or.inr h.1, h.2⟩
  have hnd : (t.ids ++ List.range' t.next ((mergeStep t.streams batch ct).pending_nodes.length -
      t.streams.pending_nodes.length)).Nodup := by
    rw [List.nodup_append]
    refine ⟨w2, List.nodup_range' _ _, ?_⟩
    intro x hx hx2
    have := w3 x hx
    rw [List.mem_range'_1] at hx2
    omega
  have hsub := keepIds_sublist ct
    (t.ids ++ List.range' t.next ((mergeStep t.streams batch ct).pending_nodes.length -
      t.streams.pending_nodes.length))
    (match_nodes (mergeStep t.streams batch ct).pending_nodes ct).linked
  refine ⟨⟨?_, ?_, ?_, ?_, ?_⟩, ?_, ?_, ?_, ?_⟩
  · exact keepIds_length ct _ _ hlen
  · exact hsub.nodup hnd
  · intro x hx
    exact (hmem x (hsub.subset hx)).2
  · exact clean_pending_after ct hclean.1
  · exact hclean.2
  · refine List.Nodup.map_on ?_ (coveredPositions_nodup hclean.1)
    intro x hx y hy hxy
    obtain ⟨bx, hbx, _⟩ := covered_evicted hclean.1 hx
    obtain ⟨by2, hby, _⟩ := covered_evicted hclean.1 hy
    have h1 := (List.getElem?_eq_some.1 hbx).1
    have h2 := (List.getElem?_eq_some.1 hby).1
    exact getD_inj hnd (by omega) (by omega) hxy
  · show t.next ≤ t.next + _
    omega
  · intro x hx
    obtain ⟨k, hk, rfl⟩ := List.mem_map.1 hx
    obtain ⟨b, hbk, hev⟩ := covered_evicted hclean.1 hk
    have hkl := (List.getElem?_eq_some.1 hbk).1
    have hkl2 : k < (t.ids ++ List.range' t.next
        ((mergeStep t.streams batch ct).pending_nodes.length -
          t.streams.pending_nodes.length)).length := by omega
    have hget : (t.ids ++ List.range' t.next
        ((mergeStep t.streams batch ct).pending_nodes.length -
          t.streams.pending_nodes.length))[k]? =
        some ((t.ids ++ List.range' t.next
          ((mergeStep t.streams batch ct).pending_nodes.length -
            t.streams.pending_nodes.length)).getD k 0) := by
      rw [List.getD_eq_getElem?_getD, List.getElem?_eq_getElem hkl2]
      rfl
    have hin := hmem _ (List.getElem?_mem hget)
    refine ⟨hin.1, hin.2, ?_⟩
    intro hkeep
    obtain ⟨k2, n, h1, h2, h3⟩ := mem_keepIds hkeep
    have hk2 : k = k2 := List.getElem?_inj hkl2 hnd (hget.trans h1.symm)
    subst hk2
    rw [hbk] at h2; cases h2
    rw [hev] at h3; cases h3
  · intro x hx
    exact (hmem x (hsub.subset hx)).1

/-- Over any sequence of ticks from a well-tracked state, with observed batches of
unmatched nodes of the two node types, no identity is covered twice. -/
theorem classified_nodup (ticks : List (List Node × Int)) :
    ∀ t : Tracked, WellTracked t → (∀ tk ∈ ticks, Clean tk.1) →
      (classified t ticks).Nodup ∧ ∀ x ∈ classified t ticks, x ∈ t.ids ∨ t.next ≤ x := by
  induction ticks with
  | nil =>
    intro t _ _
    simp [classified]
  | cons tk rest ih =>
    intro t hw hb
    obtain ⟨s1, s2, s3, s4, s5⟩ := trackedTick_spec t tk.1 tk.2 hw (hb tk (List.mem_cons_self _ _))
    obtain ⟨i1, i2⟩ := ih (trackedTick t tk.1 tk.2).1 s1
      (fun x hx => hb x (List.mem_cons_of_mem _ hx))
    unfold classified
    constructor
    · rw [List.nodup_append]
      refine ⟨s2, i1, ?_⟩
      intro x hx hx2
      obtain ⟨_, h2, h3⟩ := s4 x hx
      rcases i2 x hx2 with h | h
      · exact h3 h
      · omega
    · intro x hx
      rcases List.mem_append.1 hx with h | h
      · exact (s4 x h).1
      · rcases i2 x h with h2 | h2
        · exact s5 x h2
        · exact Or.inr (by omega)

/-- C1: one call of `match_nodes` on a pending sequence of reference and observed
events, all unmatched on entry, classifies and evicts consistently.  The events removed
are those for which the `remove_if` predicate holds on the list after the matching pass;
each of them is covered by exactly one callback of the call: an unmatched event with
`time < current_time - time_epsilon` is the node of exactly one `callback(false, .)`, a
matched reference event is the node of exactly one `callback(true, .)`, a matched observed
event is the `matched` partner of the node of exactly one `callback(true, .)`; and an
event that remains is the node or partner of no callback.  Hence over any sequence of
ticks, with the events numbered in the order in which they enter the pending sequence,
no event is covered by two callbacks.  With pending [REF t=500 v=64, OBS t=540 v=64] at
`current_time = 601` there is exactly one callback, a MATCHED one, and the pending
sequence is left empty. -/
theorem match_nodes_classifies_once :
    (∀ (nodes : List Node) (current_time : Int),
      (∀ n ∈ nodes, n.matched = none) →
      (∀ n ∈ nodes, n.type = NODE_TYPE_GROUND_TRUTH ∨ n.type = NODE_TYPE_INPUT) →
      (match_nodes nodes current_time).pending =
        (match_nodes nodes current_time).linked.filter
          (fun n => !evicted current_time n) ∧
      ∀ (i : Nat) (b : Node), (match_nodes nodes current_time).linked[i]? = some b →
        (evicted current_time b = true →
          (match_nodes nodes current_time).callbacks.countP
            (covers (match_nodes nodes current_time).linked i) = 1) ∧
        (evicted current_time b = false →
          (match_nodes nodes current_time).callbacks.countP
            (covers (match_nodes nodes current_time).linked i) = 0) ∧
        (b.matched = none → b.time < current_time - time_epsilon →
          (match_nodes nodes current_time).callbacks.countP
            (fun c => decide (c = (false, i))) = 1) ∧
        (b.matched ≠ none → b.type = NODE_TYPE_GROUND_TRUTH →
          (match_nodes nodes current_time).callbacks.countP
            (fun c => decide (c = (true, i))) = 1) ∧
        (b.matched ≠ none → b.type = NODE_TYPE_INPUT →
          ∃ j, b.matched = some j ∧
            (match_nodes nodes current_time).callbacks.countP
              (fun c => decide (c = (true, j))) = 1 ∧
            linkAt (match_nodes nodes current_time).linked j = some i)) ∧
    (∀ (t : Tracked) (input_nodes : List Node) (current_time : Int),
      (trackedTick t input_nodes current_time).1.streams =
        (tick t.streams input_nodes current_time).1) ∧
    (∀ (t : Tracked) (ticks : List (List Node × Int)),
      WellTracked t → (∀ tk ∈ ticks, Clean tk.1) → (classified t ticks).Nodup) ∧
    (∀ (ground_truth : List Node) (ticks : List (List Node × Int)),
      Clean ground_truth → (∀ tk ∈ ticks, Clean tk.1) →
      (classified ⟨⟨ground_truth, []⟩, [], 0⟩ ticks).Nodup) ∧
    ((match_nodes [⟨0, 500, 64, 1, none⟩, ⟨1, 540, 64, 1, none⟩] 601).callbacks = [(true, 0)] ∧
     linkAt (match_nodes [⟨0, 500, 64, 1, none⟩, ⟨1, 540, 64, 1, none⟩] 601).linked 0 = some 1 ∧
     (match_nodes [⟨0, 500, 64, 1, none⟩, ⟨1, 540, 64, 1, none⟩] 601).pending = []) := by
  refine ⟨?_, ?_, ?_, ?_, by decide⟩
  · intro nodes ct hu hty
    refine ⟨rfl, ?_⟩
    intro i b hb
    exact coverage_of_call nodes ct hu hty i b hb
  · intro t input_nodes ct
    rfl
  · intro t ticks hw hb
    exact (classified_nodup ticks t hw hb).1
  · intro ground_truth ticks hg hb
    refine (classified_nodup ticks ⟨⟨ground_truth, []⟩, [], 0⟩ ?_ hb).1
    refine ⟨rfl, List.nodup_nil, ?_, ?_, hg⟩
    · intro x hx
      cases hx
    · intro n hn
      cases hn

theorem match_nodes_classifies_once_witness :
    (match_nodes [⟨0, 500, 64, 1, none⟩, ⟨1, 540, 64, 1, none⟩] 601).callbacks.countP
      (covers (match_nodes [⟨0, 500, 64, 1, none⟩, ⟨1, 540, 64, 1, none⟩] 601).linked 1) = 1 :=
  ((match_nodes_classifies_once.1 [⟨0, 500, 64, 1, none⟩, ⟨1, 540, 64, 1, none⟩] 601
    (by decide) (by decide)).2 1 ⟨1, 540, 64, 1, some 0⟩ (by decide)).1 (by decide)

end NoteMatcher
